import Mathlib

set_option autoImplicit false

/-!
Verification of the chain-reaction game engine (src/src/App.jsx).

The grid is embedded as a list of rows of optional cells, mirroring the
JavaScript 2-dimensional array whose entries are `null` or
`{player, count}` objects.  Out-of-bounds reads yield `none`
(JavaScript `undefined` on a missing column) and out-of-bounds writes
are no-ops, matching `Array.prototype` semantics for the indices the
program actually uses.  The asynchronous `setTimeout` stepping of
`stepThroughQueue` is flattened into a fuel-indexed recursion; the fuel
is a modelling artefact (the source recurses until its queue empties),
and `fuelOut` marks runs the model did not finish.  Reading `.count` of
a `null` cell, which throws a `TypeError` in JavaScript, is modelled by
the `crash` outcome.
-/

def ROWS : Nat := 6
def COLS : Nat := 9

/-- The four orthogonal directions, in source order. -/
def directions : List (Int × Int) := [(-1, 0), (1, 0), (0, -1), (0, 1)]

/-- A non-empty cell: owning player and accumulated charge. -/
structure Cell where
  player : Nat
  count : Nat
deriving DecidableEq, Repr

abbrev Grid := List (List (Option Cell))

/-- Bounds test used by `getCriticalMass`, `enqueueExplosion` and
`stepThroughQueue` (`nr >= 0 && nr < ROWS && nc >= 0 && nc < COLS`). -/
def inBoundsI (x y : Int) : Prop :=
  0 ≤ x ∧ x < (ROWS : Int) ∧ 0 ≤ y ∧ y < (COLS : Int)

instance (x y : Int) : Decidable (inBoundsI x y) := by
  unfold inBoundsI; infer_instance

/-- `grid[r][c]`: `none` when empty or out of bounds. -/
def getCell (g : Grid) (r c : Nat) : Option Cell :=
  (g.getD r []).getD c none

/-- `grid[r][c] = v`: a no-op out of bounds. -/
def setCell (g : Grid) (r c : Nat) (v : Option Cell) : Grid :=
  g.set r ((g.getD r []).set c v)

/-- Well-formed grids: 6 rows of 9 columns. -/
def WF (g : Grid) : Prop :=
  g.length = ROWS ∧ ∀ row ∈ g, row.length = COLS

instance (g : Grid) : Decidable (WF g) := by
  unfold WF; infer_instance

/-- Source `getCriticalMass`: counts the in-bounds orthogonal
neighbours of `(r, c)` by folding over `directions`. -/
def getCriticalMass (r c : Nat) : Nat :=
  directions.foldl (fun count d =>
    if inBoundsI ((r : Int) + d.1) ((c : Int) + d.2) then count + 1 else count) 0

/-- Source `initialGrid`: 6 rows of 9 `null` cells. -/
def initialGrid : Grid :=
  List.replicate ROWS (List.replicate COLS none)

/-- Source player list (`["red", "blue"]`), kept for its length. -/
def players : List String := ["red", "blue"]

/-- One transfer event `{from, to, player}` pushed on the queue. -/
structure Transfer where
  fromPos : Nat × Nat
  toPos : Nat × Nat
  player : Nat
deriving DecidableEq, Repr

/-- The transfers pushed when the cell at `(x, y)` explodes: one per
in-bounds orthogonal neighbour, in `directions` order. -/
def transfersFrom (x y p : Nat) : List Transfer :=
  directions.filterMap (fun d =>
    let nx : Int := (x : Int) + d.1
    let ny : Int := (y : Int) + d.2
    if inBoundsI nx ny then
      some { fromPos := (x, y), toPos := (nx.toNat, ny.toNat), player := p }
    else none)

/-- Applying one transfer (lines 140-150): increment and reassign the
owner, or create a fresh cell of charge 1. -/
def applyOne (p : Nat) (g : Grid) (t : Transfer) : Grid :=
  match getCell g t.toPos.1 t.toPos.2 with
  | some cell => setCell g t.toPos.1 t.toPos.2 (some { player := p, count := cell.count + 1 })
  | none => setCell g t.toPos.1 t.toPos.2 (some { player := p, count := 1 })

/-- Applying a whole wave, left to right. -/
def applyWave (p : Nat) : Grid → List Transfer → Grid
  | g, [] => g
  | g, t :: rest => applyWave p (applyOne p g t) rest

/-- The next-wave detection loop (lines 164-182): for each transfer of
the current wave, in order, read `gridCopy[tx][ty].count` (a read of an
empty cell is the JavaScript `TypeError`, returned as `error`), and if
the charge meets the critical mass clear the cell and push its
transfers. -/
def detectLoop (p : Nat) : Grid → List Transfer → List Transfer →
    Except (Nat × Nat) (Grid × List Transfer)
  | g, q, [] => .ok (g, q)
  | g, q, t :: rest =>
    match getCell g t.toPos.1 t.toPos.2 with
    | none => .error (t.toPos.1, t.toPos.2)
    | some cell =>
      if getCriticalMass t.toPos.1 t.toPos.2 ≤ cell.count then
        detectLoop p (setCell g t.toPos.1 t.toPos.2 none)
          (q ++ transfersFrom t.toPos.1 t.toPos.2 p) rest
      else detectLoop p g q rest

/-- One full wave step of `stepThroughQueue`: apply every transfer of
the current wave, then run the detection loop over the same transfers
starting from an empty next queue. -/
def waveStep (p : Nat) (wave : List Transfer) (g : Grid) :
    Except (Nat × Nat) (Grid × List Transfer) :=
  detectLoop p (applyWave p g wave) [] wave

/-- Outcome of a cascade: settled grid plus the wave sequence, the
null-read `TypeError`, or model fuel exhaustion. -/
inductive StepResult where
  | ok (g : Grid) (waves : List (List Transfer))
  | crash (r c : Nat)
  | fuelOut
deriving DecidableEq, Repr

/-- Source `stepThroughQueue`: if the queue is empty the board is
settled; otherwise the queue becomes the current wave, is applied and
scanned for new explosions, and the engine recurses on the new queue. -/
def stepThroughQueue (p : Nat) : Nat → List Transfer → Grid → StepResult
  | _, [], g => .ok g []
  | 0, _ :: _, _ => .fuelOut
  | fuel + 1, t :: ts, g =>
    match waveStep p (t :: ts) g with
    | .error e => .crash e.1 e.2
    | .ok (g2, q2) =>
      match stepThroughQueue p fuel q2 g2 with
      | .ok gf ws => .ok gf ((t :: ts) :: ws)
      | r => r

/-- Source `enqueueExplosion` (lines 86-101): if the cell at `(x, y)`
exists and meets its critical mass, clear it and push one transfer per
in-bounds neighbour. -/
def enqueueExplosion (p : Nat) (g : Grid) (queue : List Transfer) (x y : Nat) :
    Grid × List Transfer :=
  match getCell g x y with
  | some cell =>
    if getCriticalMass x y ≤ cell.count then
      (setCell g x y none, queue ++ transfersFrom x y p)
    else (g, queue)
  | none => (g, queue)

/-- Source `processExplosions`: seed the queue from the triggering cell
and hand over to `stepThroughQueue`. -/
def processExplosions (fuel : Nat) (g : Grid) (r c p : Nat) : StepResult :=
  let seeded := enqueueExplosion p g [] r c
  stepThroughQueue p fuel seeded.2 seeded.1

/-- The placement of `handleClick` (lines 54-58): increment an existing
cell (owner untouched) or create `{player, count: 1}`. -/
def placeCell (g : Grid) (r c p : Nat) : Grid :=
  match getCell g r c with
  | some cell => setCell g r c (some { player := cell.player, count := cell.count + 1 })
  | none => setCell g r c (some { player := p, count := 1 })

/-- The distinct owners present on the board, as collected into the
`Set` of source `checkWin`. -/
def ownersList (g : Grid) : List Nat :=
  ((g.map (fun row => row.filterMap (fun oc => oc.map Cell.player))).flatten).dedup

/-- Source `checkWin`: exactly one owner remains and it is `p`. -/
def checkWin (g : Grid) (p : Nat) : Bool :=
  (ownersList g).length == 1 && (ownersList g).contains p

/-- The React state outside of a resolution. -/
structure GameState where
  grid : Grid
  currentPlayer : Nat
  hasPlayed : List Bool
  gameOver : Bool
  processing : Bool
deriving DecidableEq, Repr

/-- Game start: empty board, player 0, nobody has moved. -/
def initialState : GameState :=
  { grid := initialGrid, currentPlayer := 0, hasPlayed := [false, false],
    gameOver := false, processing := false }

/-- Outcome of one click: silently rejected (state returned unchanged),
a completed move, the null-read `TypeError`, or model fuel exhaustion. -/
inductive ClickResult where
  | rejected (s : GameState)
  | moved (s : GameState)
  | crash (r c : Nat)
  | fuelOut
deriving DecidableEq, Repr

/-- Source `handleClick`: guard, placement, cascade, then the win check
and turn advance of the completion callback (lines 44-78). -/
def handleClick (fuel : Nat) (s : GameState) (r c : Nat) : ClickResult :=
  if s.processing || s.gameOver then .rejected s
  else
    let cellOk : Bool :=
      match getCell s.grid r c with
      | some cell => cell.player == s.currentPlayer
      | none => true
    if cellOk then
      let newGrid := placeCell s.grid r c s.currentPlayer
      match processExplosions fuel newGrid r c s.currentPlayer with
      | .ok finalGrid _ =>
        let updatedHasPlayed := s.hasPlayed.set s.currentPlayer true
        let allPlayersStarted := updatedHasPlayed.all id
        let winner := checkWin finalGrid s.currentPlayer
        if allPlayersStarted && winner then
          .moved { s with
            grid := finalGrid
            hasPlayed := updatedHasPlayed
            gameOver := true }
        else
          .moved { s with
            grid := finalGrid
            hasPlayed := updatedHasPlayed
            currentPlayer := (s.currentPlayer + 1) % players.length }
      | .crash x y => .crash x y
      | .fuelOut => .fuelOut
    else .rejected s

/-- Game states reachable from the start by completed moves. -/
inductive Reachable : GameState → Prop
  | init : Reachable initialState
  | step {s s' : GameState} (fuel r c : Nat) :
      Reachable s → handleClick fuel s r c = .moved s' → Reachable s'

/-- Charge stored at a position, 0 when empty. -/
def chargeAt (g : Grid) (d : Nat × Nat) : Nat :=
  match getCell g d.1 d.2 with
  | some cell => cell.count
  | none => 0

/-- Charge carried by one optional cell. -/
def chargeOf : Option Cell → Nat
  | some cell => cell.count
  | none => 0

/-- Charge carried by one row. -/
def rowCharge (row : List (Option Cell)) : Nat :=
  (row.map chargeOf).sum

/-- Total charge on the board. -/
def totalCharge (g : Grid) : Nat :=
  (g.map rowCharge).sum

/-- Settled-board invariant: every cell is strictly below its critical
mass. -/
def INVgrid (g : Grid) : Prop :=
  ∀ r, r < ROWS → ∀ c, c < COLS → chargeAt g (r, c) < getCriticalMass r c

instance (g : Grid) : Decidable (INVgrid g) := by
  unfold INVgrid; infer_instance

/-- Positivity invariant: every stored cell has charge at least 1. -/
def POSgrid (g : Grid) : Prop :=
  ∀ r, r < ROWS → ∀ c, c < COLS → getCell g r c = none ∨ 1 ≤ chargeAt g (r, c)

instance (g : Grid) : Decidable (POSgrid g) := by
  unfold POSgrid; infer_instance

/-- Keep the first occurrence of each position, in order of first
appearance. -/
def fdAux : List (Nat × Nat) → List (Nat × Nat) → List (Nat × Nat)
  | acc, [] => acc
  | acc, d :: rest => if d ∈ acc then fdAux acc rest else fdAux (acc ++ [d]) rest

/-- The distinct positions of `l`, each at its first occurrence. -/
def firstDedup (l : List (Nat × Nat)) : List (Nat × Nat) :=
  fdAux [] l

/-- Whether the cell stored at `d` meets its critical mass. -/
def explodesAt (g : Grid) (d : Nat × Nat) : Bool :=
  match getCell g d.1 d.2 with
  | some cell => decide (getCriticalMass d.1 d.2 ≤ cell.count)
  | none => false

/-- The destinations of a wave that explode on the post-application
snapshot, in first-occurrence order. -/
def explodedSet (g : Grid) (l : List (Nat × Nat)) : List (Nat × Nat) :=
  (firstDedup l).filter (fun d => explodesAt g d)

def specWaveGo (snap : Grid) (p : Nat) :
    Grid × List Transfer → List (Nat × Nat) → Grid × List Transfer
  | acc, [] => acc
  | acc, d :: rest =>
    if explodesAt snap d then
      specWaveGo snap p (setCell acc.1 d.1 d.2 none, acc.2 ++ transfersFrom d.1 d.2 p) rest
    else specWaveGo snap p acc rest

/-- Modelled from the spec (§4.3 steps 2 and 5): every pending position
is re-checked against the one fixed pre-wave snapshot `snap`; an
unstable one is cleared and records one transfer per in-bounds
orthogonal neighbour.  Used to compare the source's detection loop with
the spec's description. -/
def specWave (snap : Grid) (p : Nat) (pending : List (Nat × Nat)) :
    Grid × List Transfer :=
  specWaveGo snap p (snap, []) pending

/-- Modelled from the spec (§3 Capacity): orthogonal adjacency of two
positions. -/
def orthAdjacent (a b : Nat × Nat) : Prop :=
  (a.1 = b.1 ∧ (a.2 + 1 = b.2 ∨ b.2 + 1 = a.2)) ∨
  (a.2 = b.2 ∧ (a.1 + 1 = b.1 ∨ b.1 + 1 = a.1))

instance (a b : Nat × Nat) : Decidable (orthAdjacent a b) := by
  unfold orthAdjacent; infer_instance

/-- Modelled from the spec (§3 Capacity): the orthogonally adjacent
positions of `(r, c)` that lie within bounds. -/
def orthNeighbors (r c : Nat) : List (Nat × Nat) :=
  (((List.range ROWS).map (fun i => (List.range COLS).map (fun j => (i, j)))).flatten).filter
    (fun d => decide (orthAdjacent (r, c) d))

/-- An animation record as pushed to the `explosions` React state: the
key embeds the `Date.now()` timestamp. -/
structure AnimRec where
  fromPos : Nat × Nat
  toPos : Nat × Nat
  key : (Nat × Nat) × (Nat × Nat) × Nat
  player : Nat
deriving DecidableEq, Repr

/-- `stepThroughQueue` with the animation side channel made explicit:
`now` is the wall clock sampled once per wave (`Date.now()`), `tick`
the number of waves already animated.  The game-logic result is the
first component; the animation records are the second. -/
def stepThroughQueueAnim (now : Nat → Nat) (p : Nat) :
    Nat → Nat → List Transfer → Grid → StepResult × List AnimRec
  | _, _, [], g => (.ok g [], [])
  | _, 0, _ :: _, _ => (.fuelOut, [])
  | tick, fuel + 1, t :: ts, g =>
    let anims := (t :: ts).map (fun u =>
      { fromPos := u.fromPos, toPos := u.toPos,
        key := (u.fromPos, u.toPos, now tick), player := p : AnimRec })
    match waveStep p (t :: ts) g with
    | .error e => (.crash e.1 e.2, anims)
    | .ok (g2, q2) =>
      let rest := stepThroughQueueAnim now p (tick + 1) fuel q2 g2
      (match rest.1 with
       | .ok gf ws => .ok gf ((t :: ts) :: ws)
       | r => r,
       anims ++ rest.2)

/-- `processExplosions` with the animation side channel. -/
def processExplosionsAnim (now : Nat → Nat) (fuel : Nat) (g : Grid) (r c p : Nat) :
    StepResult × List AnimRec :=
  let seeded := enqueueExplosion p g [] r c
  stepThroughQueueAnim now p 0 fuel seeded.2 seeded.1

/-- Whether a click outcome is the silent early return. -/
def isRejected : ClickResult → Bool
  | .rejected _ => true
  | _ => false

/-- Whether the clicked cell is occupied by a player other than the
current one. -/
def ownedByOther (s : GameState) (r c : Nat) : Bool :=
  match getCell s.grid r c with
  | some cell => !(cell.player == s.currentPlayer)
  | none => false

/-- Board after player 0's first move at (0,1). -/
def gridA : Grid := setCell initialGrid 0 1 (some ⟨0, 1⟩)
/-- Board after player 1 then plays (0,0). -/
def gridB : Grid := setCell gridA 0 0 (some ⟨1, 1⟩)
/-- Board after player 0 reinforces (0,1). -/
def gridC : Grid := setCell gridB 0 1 (some ⟨0, 2⟩)
/-- Board after player 1 plays (1,0). -/
def gridD : Grid := setCell gridC 1 0 (some ⟨1, 1⟩)
/-- Board after player 0 plays (3,4). -/
def gridE : Grid := setCell gridD 3 4 (some ⟨0, 1⟩)
/-- Board after player 1 reinforces (1,0). -/
def gridF : Grid := setCell gridE 1 0 (some ⟨1, 2⟩)
/-- Board after player 0 reinforces (3,4). -/
def gridG : Grid := setCell gridF 3 4 (some ⟨0, 2⟩)

def st1 : GameState := ⟨gridA, 1, [true, false], false, false⟩
def st2 : GameState := ⟨gridB, 0, [true, true], false, false⟩
def st3 : GameState := ⟨gridC, 1, [true, true], false, false⟩
def st4 : GameState := ⟨gridD, 0, [true, true], false, false⟩
def st5 : GameState := ⟨gridE, 1, [true, true], false, false⟩
def st6 : GameState := ⟨gridF, 0, [true, true], false, false⟩
/-- The reachable state from which player 1's move at (0,0) makes the
engine read the charge of an emptied cell. -/
def stateC10 : GameState := ⟨gridG, 1, [true, true], false, false⟩

/-- The board after player 0 has placed twice at the corner (0,0). -/
def cornerTwice : Grid := placeCell (placeCell initialGrid 0 0 0) 0 0 0

/-- The settled board of the corner cascade: (0,0) empty, one orb of
player 0 at (1,0) and at (0,1). -/
def cornerSettled : Grid :=
  setCell (setCell initialGrid 1 0 (some ⟨0, 1⟩)) 0 1 (some ⟨0, 1⟩)

/-- A board primed for a two-wave cascade: (0,0) holds one orb and
(0,1) two, all of player 0. -/
def twoWaveBoard : Grid :=
  setCell (setCell initialGrid 0 0 (some ⟨0, 1⟩)) 0 1 (some ⟨0, 2⟩)

/-- The settled board of the two-wave cascade. -/
def twoWaveSettled : Grid :=
  setCell (setCell (setCell (setCell initialGrid 0 0 (some ⟨0, 1⟩)) 0 2 (some ⟨0, 1⟩))
    1 0 (some ⟨0, 1⟩)) 1 1 (some ⟨0, 1⟩)

instance {ε α : Type} [DecidableEq ε] [DecidableEq α] : DecidableEq (Except ε α) := by
  intro a b
  cases a <;> cases b
  case error.error e1 e2 =>
    exact if h : e1 = e2 then .isTrue (by rw [h]) else .isFalse (by simp [h])
  case error.ok e1 a2 => exact .isFalse (by simp)
  case ok.error a1 e2 => exact .isFalse (by simp)
  case ok.ok a1 a2 =>
    exact if h : a1 = a2 then .isTrue (by rw [h]) else .isFalse (by simp [h])

/-- The pre-wave board of the second wave of the `stateC10` cascade:
only (3,4) is occupied. -/
def gX : Grid := setCell initialGrid 3 4 (some ⟨0, 2⟩)

/-- The second wave of the `stateC10` cascade: the transfers of the
simultaneous explosions of (1,0) and (0,1), which both target (0,0). -/
def WX : List Transfer :=
  [⟨(1, 0), (0, 0), 1⟩, ⟨(1, 0), (2, 0), 1⟩, ⟨(1, 0), (1, 1), 1⟩,
   ⟨(0, 1), (1, 1), 1⟩, ⟨(0, 1), (0, 0), 1⟩, ⟨(0, 1), (0, 2), 1⟩]

/-- Some cell on the board belongs to player `p`. -/
def ownsCell (g : Grid) (p : Nat) : Prop :=
  ∃ r c cell, getCell g r c = some cell ∧ cell.player = p

/-- The single wave of the corner cascade of `cornerTwice`. -/
def cornerWave : List Transfer :=
  [⟨(0, 0), (1, 0), 0⟩, ⟨(0, 0), (0, 1), 0⟩]

/-- The state after player 0's opening move at (0,0). -/
def stOpen : GameState :=
  ⟨setCell initialGrid 0 0 (some ⟨0, 1⟩), 1, [true, false], false, false⟩

/-- A finished game: any further click must be rejected. -/
def stateOverC4 : GameState :=
  ⟨setCell initialGrid 0 0 (some ⟨0, 1⟩), 1, [true, true], true, false⟩

/-- C10: refuted — the claim says next-wave detection never reads the
charge of an empty cell, but from the reachable state `stateC10`
(seven legal moves from the start) player 1's move at (0,0) cascades so
that (1,0) and (0,1) explode in the same wave, their shared destination
(0,0) reaches its critical mass and is cleared at its first detection
visit, and the second visit reads the charge of the now-empty (0,0):
in the source this is `gridCopy[0][0].count` with `gridCopy[0][0]`
null, a TypeError. -/
theorem detection_null_read_reachable :
    Reachable stateC10 ∧ handleClick 10 stateC10 0 0 = ClickResult.crash 0 0 := by
  refine ⟨?_, by decide⟩
  have h1 : Reachable st1 := Reachable.step 1 0 1 Reachable.init (by decide)
  have h2 : Reachable st2 := Reachable.step 1 0 0 h1 (by decide)
  have h3 : Reachable st3 := Reachable.step 1 0 1 h2 (by decide)
  have h4 : Reachable st4 := Reachable.step 1 1 0 h3 (by decide)
  have h5 : Reachable st5 := Reachable.step 1 3 4 h4 (by decide)
  have h6 : Reachable st6 := Reachable.step 1 1 0 h5 (by decide)
  exact Reachable.step 1 3 4 h6 (by decide)

/-- C5: for every in-bounds position the critical mass computed by the
source equals the number of in-bounds orthogonally adjacent positions,
and is 2 at the four corners, 3 on non-corner edges and 4 in the
interior of the 6 by 9 grid. -/
theorem criticalMass_matches_neighbor_count :
    ∀ r, r < ROWS → ∀ c, c < COLS →
      getCriticalMass r c = (orthNeighbors r c).length ∧
      getCriticalMass r c =
        (if (r = 0 ∨ r = ROWS - 1) ∧ (c = 0 ∨ c = COLS - 1) then 2
         else if r = 0 ∨ r = ROWS - 1 ∨ c = 0 ∨ c = COLS - 1 then 3
         else 4) := by
  decide

/-- C5 witness at the corner (0,0). -/
theorem criticalMass_matches_neighbor_count_witness :
    getCriticalMass 0 0 = (orthNeighbors 0 0).length ∧
    getCriticalMass 0 0 =
      (if ((0 : Nat) = 0 ∨ (0 : Nat) = ROWS - 1) ∧ ((0 : Nat) = 0 ∨ (0 : Nat) = COLS - 1) then 2
       else if (0 : Nat) = 0 ∨ (0 : Nat) = ROWS - 1 ∨ (0 : Nat) = 0 ∨ (0 : Nat) = COLS - 1 then 3
       else 4) :=
  criticalMass_matches_neighbor_count 0 (by decide) 0 (by decide)

/-- C6: the second placement at the corner (0,0) of an empty board
raises its charge to 2 (its capacity), and resolution produces exactly
one wave of exactly two transfers, to (1,0) and (0,1); afterwards
(0,0) is empty and both destinations hold owner 0 with charge 1. -/
theorem corner_double_placement_cascade :
    getCell cornerTwice 0 0 = some ⟨0, 2⟩ ∧
    getCriticalMass 0 0 = 2 ∧
    processExplosions 10 cornerTwice 0 0 0 =
      StepResult.ok cornerSettled
        [[⟨(0, 0), (1, 0), 0⟩, ⟨(0, 0), (0, 1), 0⟩]] ∧
    getCell cornerSettled 0 0 = none ∧
    getCell cornerSettled 0 1 = some ⟨0, 1⟩ ∧
    getCell cornerSettled 1 0 = some ⟨0, 1⟩ := by
  decide

/-- C8: the engine has no defensive wave cap — a resolution that needs
several waves simply keeps propagating until its queue empties and
returns the settled board, with no wave counter consulted and no fatal
signal of any kind; `stepThroughQueue` recurses purely on queue
non-emptiness. -/
theorem cascade_runs_all_waves_without_cap :
    processExplosions 10 (placeCell twoWaveBoard 0 0 0) 0 0 0 =
      StepResult.ok twoWaveSettled
        [[⟨(0, 0), (1, 0), 0⟩, ⟨(0, 0), (0, 1), 0⟩],
         [⟨(0, 1), (1, 1), 0⟩, ⟨(0, 1), (0, 0), 0⟩, ⟨(0, 1), (0, 2), 0⟩]] := by
  decide

/-- C1 counterexample: on the wave `WX` (reachable via `stateC10`) the
source's wave step does not behave as examining the set of distinct
destination positions against the fixed post-application snapshot —
the spec-style pass completes while the source pass aborts on the
duplicate destination (0,0). -/
theorem wave_examination_differs_from_distinct_set :
    waveStep 1 WX gX ≠
      Except.ok (specWave (applyWave 1 gX WX) 1 (firstDedup (WX.map Transfer.toPos))) := by
  decide

theorem getCell_setCell_ne (g : Grid) {r c rp cp : Nat} (v : Option Cell)
    (h : r ≠ rp ∨ c ≠ cp) :
    getCell (setCell g r c v) rp cp = getCell g rp cp := by
  simp only [getCell, setCell, List.getD_eq_getElem?_getD]
  rcases h with h | h
  · rw [List.getElem?_set_ne h]
  · rcases eq_or_ne r rp with rfl | hr
    · by_cases hl : r < g.length
      · rw [List.getElem?_set_self hl, Option.getD_some, List.getElem?_set_ne h]
      · have h1 : (List.set g r ((g[r]?.getD []).set c v))[r]? = none :=
          List.getElem?_eq_none (by rw [List.length_set]; omega)
        have h2 : g[r]? = none := List.getElem?_eq_none (by omega)
        rw [h1, h2]
    · rw [List.getElem?_set_ne hr]

theorem getCell_setCell_self (g : Grid) {r c : Nat} (v : Option Cell)
    (hW : WF g) (hr : r < ROWS) (hc : c < COLS) :
    getCell (setCell g r c v) r c = v := by
  obtain ⟨hlen, hrow⟩ := hW
  have hrg : r < g.length := by omega
  have hmem : g[r]?.getD [] ∈ g := by
    rw [List.getElem?_eq_getElem hrg, Option.getD_some]; exact List.getElem_mem hrg
  have hcg : c < (g[r]?.getD []).length := by rw [hrow _ hmem]; exact hc
  simp only [getCell, setCell, List.getD_eq_getElem?_getD]
  rw [List.getElem?_set_self hrg, Option.getD_some,
    List.getElem?_set_self hcg, Option.getD_some]

theorem WF_setCell (g : Grid) (r c : Nat) (v : Option Cell) (hW : WF g) :
    WF (setCell g r c v) := by
  obtain ⟨hlen, hrow⟩ := hW
  by_cases hrg : r < g.length
  · constructor
    · rw [setCell, List.length_set]; exact hlen
    · intro row hmem
      rcases List.mem_or_eq_of_mem_set hmem with h | rfl
      · exact hrow _ h
      · rw [List.length_set]
        apply hrow
        rw [List.getD_eq_getElem _ _ hrg]; exact List.getElem_mem hrg
  · have heq : setCell g r c v = g := by
      unfold setCell; exact List.set_eq_of_length_le (by omega)
    rw [heq]; exact ⟨hlen, hrow⟩

theorem getCell_oob {g : Grid} {r c : Nat} (hW : WF g)
    (h : ¬(r < ROWS ∧ c < COLS)) : getCell g r c = none := by
  obtain ⟨hlen, hrow⟩ := hW
  simp only [getCell, List.getD_eq_getElem?_getD]
  by_cases hr : r < ROWS
  · have hc : ¬ c < COLS := by tauto
    have hrg : r < g.length := by omega
    have hmem : g[r]?.getD [] ∈ g := by
      rw [List.getElem?_eq_getElem hrg, Option.getD_some]; exact List.getElem_mem hrg
    rw [List.getElem?_eq_none (by rw [hrow _ hmem]; omega)]
    rfl
  · have h2 : g[r]? = none := List.getElem?_eq_none (by omega)
    rw [h2]
    rfl

theorem bounds_of_getCell_some {g : Grid} {r c : Nat} {cell : Cell} (hW : WF g)
    (h : getCell g r c = some cell) : r < ROWS ∧ c < COLS := by
  by_contra hcon
  rw [getCell_oob hW hcon] at h
  exact Option.noConfusion h

theorem grid_ext {g1 g2 : Grid} (h1 : WF g1) (h2 : WF g2)
    (h : ∀ r c, getCell g1 r c = getCell g2 r c) : g1 = g2 := by
  obtain ⟨hl1, hr1⟩ := h1
  obtain ⟨hl2, hr2⟩ := h2
  apply List.ext_getElem (by omega)
  intro n hn1 hn2
  have hrow1 : g1[n].length = COLS := hr1 _ (List.getElem_mem hn1)
  have hrow2 : g2[n].length = COLS := hr2 _ (List.getElem_mem hn2)
  apply List.ext_getElem (by omega)
  intro m hm1 hm2
  have hm := h n m
  unfold getCell at hm
  rw [List.getD_eq_getElem _ _ hn1, List.getD_eq_getElem _ _ hn2,
    List.getD_eq_getElem _ _ hm1, List.getD_eq_getElem _ _ hm2] at hm
  exact hm

theorem list_sum_map_set {α : Type} (f : α → Nat) :
    ∀ (l : List α) (i : Nat) (a : α), i < l.length →
      ((l.set i a).map f).sum + f (l.getD i a) = (l.map f).sum + f a := by
  intro l
  induction l with
  | nil => intro i a h; simp at h
  | cons x xs ih =>
    intro i a h
    cases i with
    | zero =>
      simp only [List.set_cons_zero, List.map_cons, List.sum_cons, List.getD_cons_zero]
      omega
    | succ j =>
      have hj : j < xs.length := by simpa using h
      have hih := ih j a hj
      simp only [List.set_cons_succ, List.map_cons, List.sum_cons, List.getD_cons_succ]
      omega

theorem totalCharge_setCell (g : Grid) {r c : Nat} (v : Option Cell)
    (hW : WF g) (hr : r < ROWS) (hc : c < COLS) :
    totalCharge (setCell g r c v) + chargeOf (getCell g r c) =
      totalCharge g + chargeOf v := by
  obtain ⟨hlen, hrow⟩ := hW
  have hrg : r < g.length := by omega
  have hmem : g.getD r [] ∈ g := by
    rw [List.getD_eq_getElem _ _ hrg]; exact List.getElem_mem hrg
  have hcg : c < (g.getD r []).length := by rw [hrow _ hmem]; exact hc
  have hrowlevel := list_sum_map_set chargeOf (g.getD r []) c v hcg
  have hgridlevel := list_sum_map_set rowCharge g r ((g.getD r []).set c v) hrg
  have e1 : totalCharge (setCell g r c v) + rowCharge (g.getD r ((g.getD r []).set c v)) =
      totalCharge g + rowCharge ((g.getD r []).set c v) := hgridlevel
  have hD : g.getD r ((g.getD r []).set c v) = g.getD r [] := by
    rw [List.getD_eq_getElem _ _ hrg, List.getD_eq_getElem _ _ hrg]
  rw [hD] at e1
  have e2 : rowCharge ((g.getD r []).set c v) + chargeOf ((g.getD r []).getD c v) =
      rowCharge (g.getD r []) + chargeOf v := hrowlevel
  have hD2 : (g.getD r []).getD c v = (g.getD r []).getD c none := by
    rw [List.getD_eq_getElem _ _ hcg, List.getD_eq_getElem _ _ hcg]
  rw [hD2] at e2
  have e3 : getCell g r c = (g.getD r []).getD c none := rfl
  rw [e3]
  omega

theorem foldl_count_eq {α β : Type} (P : α → Prop) [DecidablePred P] (F : α → β) :
    ∀ (l : List α) (k : Nat),
      l.foldl (fun n a => if P a then n + 1 else n) k =
        k + (l.filterMap (fun a => if P a then some (F a) else none)).length := by
  intro l
  induction l with
  | nil => intro k; simp
  | cons a rest ih =>
    intro k
    by_cases h : P a <;> simp [h, ih] <;> omega

theorem transfersFrom_length (x y p : Nat) :
    (transfersFrom x y p).length = getCriticalMass x y := by
  have h2 : getCriticalMass x y = 0 + (transfersFrom x y p).length :=
    foldl_count_eq (fun d : Int × Int => inBoundsI ((x : Int) + d.1) ((y : Int) + d.2))
      (fun d : Int × Int =>
        ({ fromPos := (x, y), toPos := (((x : Int) + d.1).toNat, ((y : Int) + d.2).toNat),
           player := p } : Transfer)) directions 0
  omega

theorem transfersFrom_facts (x y p : Nat) :
    ∀ t ∈ transfersFrom x y p,
      t.player = p ∧ t.fromPos = (x, y) ∧ t.toPos.1 < ROWS ∧ t.toPos.2 < COLS := by
  intro t ht
  simp only [transfersFrom, List.mem_filterMap] at ht
  obtain ⟨d, _, hd⟩ := ht
  by_cases hb : inBoundsI ((x : Int) + d.1) ((y : Int) + d.2)
  · rw [if_pos hb] at hd
    obtain ⟨hb1, hb2, hb3, hb4⟩ := hb
    cases hd
    refine ⟨rfl, rfl, ?_, ?_⟩ <;> simp only [] <;> omega
  · rw [if_neg hb] at hd
    exact Option.noConfusion hd

theorem criticalMass_ge_two : ∀ x, x < ROWS → ∀ y, y < COLS →
    2 ≤ getCriticalMass x y := by decide

theorem transfersFrom_ne_nil {x y : Nat} (p : Nat) (hx : x < ROWS) (hy : y < COLS) :
    transfersFrom x y p ≠ [] := by
  intro h
  have hlen := transfersFrom_length x y p
  rw [h] at hlen
  have := criticalMass_ge_two x hx y hy
  simp at hlen
  omega

theorem chargeAt_eq (g : Grid) (d : Nat × Nat) :
    chargeAt g d = chargeOf (getCell g d.1 d.2) := by
  unfold chargeAt chargeOf
  cases getCell g d.1 d.2 <;> rfl

theorem applyOne_ne (p : Nat) (g : Grid) (t : Transfer) {r c : Nat}
    (h : (r, c) ≠ t.toPos) : getCell (applyOne p g t) r c = getCell g r c := by
  have hne : t.toPos.1 ≠ r ∨ t.toPos.2 ≠ c := by
    by_contra hcon
    push_neg at hcon
    exact h (by rw [← hcon.1, ← hcon.2])
  unfold applyOne
  cases getCell g t.toPos.1 t.toPos.2 <;> exact getCell_setCell_ne g _ hne

theorem applyOne_self (p : Nat) (g : Grid) (t : Transfer) (hW : WF g)
    (h1 : t.toPos.1 < ROWS) (h2 : t.toPos.2 < COLS) :
    getCell (applyOne p g t) t.toPos.1 t.toPos.2 =
      some ⟨p, chargeAt g t.toPos + 1⟩ := by
  unfold applyOne
  cases hg : getCell g t.toPos.1 t.toPos.2 with
  | none =>
    rw [getCell_setCell_self g _ hW h1 h2, chargeAt_eq, hg]
    rfl
  | some cell =>
    rw [getCell_setCell_self g _ hW h1 h2, chargeAt_eq, hg]
    rfl

theorem WF_applyOne (p : Nat) (g : Grid) (t : Transfer) (hW : WF g) :
    WF (applyOne p g t) := by
  unfold applyOne
  cases getCell g t.toPos.1 t.toPos.2 <;> exact WF_setCell _ _ _ _ hW

theorem applyOne_totalCharge (p : Nat) (g : Grid) (t : Transfer) (hW : WF g)
    (h1 : t.toPos.1 < ROWS) (h2 : t.toPos.2 < COLS) :
    totalCharge (applyOne p g t) = totalCharge g + 1 := by
  cases hg : getCell g t.toPos.1 t.toPos.2 with
  | none =>
    have happ : applyOne p g t = setCell g t.toPos.1 t.toPos.2 (some ⟨p, 1⟩) := by
      unfold applyOne; rw [hg]
    have hacc := totalCharge_setCell g (some (⟨p, 1⟩ : Cell)) hW h1 h2
    rw [hg] at hacc
    simp only [chargeOf] at hacc
    rw [happ]
    omega
  | some cell =>
    have happ : applyOne p g t =
        setCell g t.toPos.1 t.toPos.2 (some ⟨p, cell.count + 1⟩) := by
      unfold applyOne; rw [hg]
    have hacc := totalCharge_setCell g (some (⟨p, cell.count + 1⟩ : Cell)) hW h1 h2
    rw [hg] at hacc
    simp only [chargeOf] at hacc
    rw [happ]
    omega

theorem applyWave_char (p : Nat) :
    ∀ (W : List Transfer) (g : Grid), WF g →
      WF (applyWave p g W) ∧
      (∀ r c, List.count (r, c) (W.map Transfer.toPos) = 0 →
        getCell (applyWave p g W) r c = getCell g r c) ∧
      (∀ r c, r < ROWS → c < COLS →
        chargeAt (applyWave p g W) (r, c) =
          chargeAt g (r, c) + List.count (r, c) (W.map Transfer.toPos) ∧
        (0 < List.count (r, c) (W.map Transfer.toPos) →
          getCell (applyWave p g W) r c =
            some ⟨p, chargeAt g (r, c) + List.count (r, c) (W.map Transfer.toPos)⟩)) := by
  intro W
  induction W with
  | nil =>
    intro g hW
    refine ⟨hW, ?_, ?_⟩
    · intro r c _; rfl
    · intro r c _ _
      simp [applyWave]
  | cons t rest ih =>
    intro g hW
    have hW1 : WF (applyOne p g t) := WF_applyOne p g t hW
    obtain ⟨ihWF, ihNe, ihCh⟩ := ih (applyOne p g t) hW1
    have hstep : applyWave p g (t :: rest) = applyWave p (applyOne p g t) rest := rfl
    refine ⟨by rw [hstep]; exact ihWF, ?_, ?_⟩
    · intro r c hcount
      rw [List.map_cons, List.count_cons] at hcount
      have hne : t.toPos ≠ (r, c) := by
        intro he
        simp [he] at hcount
      have hc0 : List.count (r, c) (rest.map Transfer.toPos) = 0 := by
        simp [hne] at hcount
        exact hcount
      rw [hstep, ihNe r c hc0, applyOne_ne p g t (fun he => hne he.symm)]
    · intro r c hr hc
      obtain ⟨ihA, ihB⟩ := ihCh r c hr hc
      by_cases ht : t.toPos = (r, c)
      · have hself : getCell (applyOne p g t) r c = some ⟨p, chargeAt g (r, c) + 1⟩ := by
          have := applyOne_self p g t hW (by rw [ht]; exact hr) (by rw [ht]; exact hc)
          rw [ht] at this
          exact this
        have hchg : chargeAt (applyOne p g t) (r, c) = chargeAt g (r, c) + 1 := by
          rw [chargeAt_eq, hself]; rfl
        have hcnt : List.count (r, c) ((t :: rest).map Transfer.toPos) =
            List.count (r, c) (rest.map Transfer.toPos) + 1 := by
          rw [List.map_cons, List.count_cons]
          simp [ht]
        constructor
        · rw [hstep, ihA, hchg, hcnt]; omega
        · intro _
          rw [hstep, hcnt]
          by_cases hrest : 0 < List.count (r, c) (rest.map Transfer.toPos)
          · rw [ihB hrest, hchg]
            congr 2
            omega
          · have h0 : List.count (r, c) (rest.map Transfer.toPos) = 0 := by omega
            rw [ihNe r c h0, hself, h0]
      · have hne2 : (r, c) ≠ t.toPos := fun he => ht he.symm
        have hchg : chargeAt (applyOne p g t) (r, c) = chargeAt g (r, c) := by
          rw [chargeAt_eq, chargeAt_eq]
          simp only []
          rw [applyOne_ne p g t hne2]
        have hcnt : List.count (r, c) ((t :: rest).map Transfer.toPos) =
            List.count (r, c) (rest.map Transfer.toPos) := by
          rw [List.map_cons, List.count_cons]
          simp [ht]
        constructor
        · rw [hstep, ihA, hchg, hcnt]
        · intro hpos
          rw [hcnt] at hpos
          rw [hstep, ihB hpos, hchg, hcnt]

theorem applyWave_totalCharge (p : Nat) :
    ∀ (W : List Transfer) (g : Grid), WF g →
      (∀ t ∈ W, t.toPos.1 < ROWS ∧ t.toPos.2 < COLS) →
      totalCharge (applyWave p g W) = totalCharge g + W.length := by
  intro W
  induction W with
  | nil => intro g _ _; simp [applyWave]
  | cons t rest ih =>
    intro g hW hb
    obtain ⟨h1, h2⟩ := hb t (by simp)
    have := ih (applyOne p g t) (WF_applyOne p g t hW) (fun u hu => hb u (by simp [hu]))
    have hone := applyOne_totalCharge p g t hW h1 h2
    have hstep : applyWave p g (t :: rest) = applyWave p (applyOne p g t) rest := rfl
    rw [hstep, this, hone, List.length_cons]
    omega

theorem mem_fdAux : ∀ (l acc : List (Nat × Nat)) (x : Nat × Nat),
    x ∈ fdAux acc l ↔ x ∈ acc ∨ x ∈ l := by
  intro l
  induction l with
  | nil => intro acc x; simp [fdAux]
  | cons d rest ih =>
    intro acc x
    by_cases hd : d ∈ acc
    · rw [show fdAux acc (d :: rest) = fdAux acc rest from by simp [fdAux, hd], ih]
      simp only [List.mem_cons]
      constructor
      · rintro (h | h)
        · exact Or.inl h
        · exact Or.inr (Or.inr h)
      · rintro (h | rfl | h)
        · exact Or.inl h
        · exact Or.inl hd
        · exact Or.inr h
    · rw [show fdAux acc (d :: rest) = fdAux (acc ++ [d]) rest from by simp [fdAux, hd], ih]
      simp only [List.mem_append, List.mem_cons, List.mem_singleton]
      tauto

theorem fdAux_nodup : ∀ (l acc : List (Nat × Nat)), acc.Nodup → (fdAux acc l).Nodup := by
  intro l
  induction l with
  | nil => intro acc h; simpa [fdAux] using h
  | cons d rest ih =>
    intro acc h
    by_cases hd : d ∈ acc
    · rw [show fdAux acc (d :: rest) = fdAux acc rest from by simp [fdAux, hd]]
      exact ih acc h
    · rw [show fdAux acc (d :: rest) = fdAux (acc ++ [d]) rest from by simp [fdAux, hd]]
      apply ih
      rw [List.nodup_append]
      refine ⟨h, List.nodup_singleton d, ?_⟩
      intro x hx hx2
      rw [List.mem_singleton] at hx2
      exact hd (hx2 ▸ hx)

theorem fdAux_append_one : ∀ (l acc : List (Nat × Nat)) (d : Nat × Nat),
    fdAux acc (l ++ [d]) =
      if d ∈ fdAux acc l then fdAux acc l else fdAux acc l ++ [d] := by
  intro l
  induction l with
  | nil =>
    intro acc d
    simp [fdAux]
  | cons x rest ih =>
    intro acc d
    by_cases hx : x ∈ acc
    · rw [show (x :: rest) ++ [d] = x :: (rest ++ [d]) from rfl,
        show fdAux acc (x :: (rest ++ [d])) = fdAux acc (rest ++ [d]) from by simp [fdAux, hx],
        show fdAux acc (x :: rest) = fdAux acc rest from by simp [fdAux, hx]]
      exact ih acc d
    · rw [show (x :: rest) ++ [d] = x :: (rest ++ [d]) from rfl,
        show fdAux acc (x :: (rest ++ [d])) = fdAux (acc ++ [x]) (rest ++ [d]) from by
          simp [fdAux, hx],
        show fdAux acc (x :: rest) = fdAux (acc ++ [x]) rest from by simp [fdAux, hx]]
      exact ih (acc ++ [x]) d

theorem mem_firstDedup (l : List (Nat × Nat)) (x : Nat × Nat) :
    x ∈ firstDedup l ↔ x ∈ l := by
  rw [firstDedup, mem_fdAux]
  simp

theorem firstDedup_nodup (l : List (Nat × Nat)) : (firstDedup l).Nodup :=
  fdAux_nodup l [] (List.nodup_nil)

theorem firstDedup_append_one (l : List (Nat × Nat)) (d : Nat × Nat) :
    firstDedup (l ++ [d]) =
      if d ∈ l then firstDedup l else firstDedup l ++ [d] := by
  rw [firstDedup, fdAux_append_one, show fdAux [] l = firstDedup l from rfl]
  by_cases hd : d ∈ l
  · rw [if_pos ((mem_firstDedup l d).mpr hd), if_pos hd]
  · rw [if_neg (fun h => hd ((mem_firstDedup l d).mp h)), if_neg hd]

theorem mem_explodedSet (g1 : Grid) (l : List (Nat × Nat)) (d : Nat × Nat) :
    d ∈ explodedSet g1 l ↔ d ∈ l ∧ explodesAt g1 d = true := by
  rw [explodedSet, List.mem_filter, mem_firstDedup]

theorem explodedSet_append_mem (g1 : Grid) (l : List (Nat × Nat)) (d : Nat × Nat)
    (hd : d ∈ l) : explodedSet g1 (l ++ [d]) = explodedSet g1 l := by
  rw [explodedSet, explodedSet, firstDedup_append_one, if_pos hd]

theorem explodedSet_append_true (g1 : Grid) (l : List (Nat × Nat)) (d : Nat × Nat)
    (hd : d ∉ l) (hx : explodesAt g1 d = true) :
    explodedSet g1 (l ++ [d]) = explodedSet g1 l ++ [d] := by
  rw [explodedSet, explodedSet, firstDedup_append_one, if_neg hd, List.filter_append]
  simp [hx]

theorem explodedSet_append_false (g1 : Grid) (l : List (Nat × Nat)) (d : Nat × Nat)
    (hx : explodesAt g1 d = false) :
    explodedSet g1 (l ++ [d]) = explodedSet g1 l := by
  rw [explodedSet, explodedSet, firstDedup_append_one]
  by_cases hd : d ∈ l
  · rw [if_pos hd]
  · rw [if_neg hd, List.filter_append]
    simp [hx]

theorem explodedSet_nil (g1 : Grid) : explodedSet g1 [] = [] := rfl

theorem detectLoop_char (p : Nat) (g1 : Grid) (hW1 : WF g1) :
    ∀ (rest pre : List Transfer) (gA : Grid) (qA : List Transfer)
      (g2 : Grid) (q2 : List Transfer),
    (∀ r c, getCell gA r c =
      if (r, c) ∈ explodedSet g1 (pre.map Transfer.toPos) then none
      else getCell g1 r c) →
    qA = (explodedSet g1 (pre.map Transfer.toPos)).flatMap
      (fun d => transfersFrom d.1 d.2 p) →
    totalCharge gA +
        ((explodedSet g1 (pre.map Transfer.toPos)).map (chargeAt g1)).sum =
      totalCharge g1 →
    WF gA →
    detectLoop p gA qA rest = .ok (g2, q2) →
    (∀ r c, getCell g2 r c =
      if (r, c) ∈ explodedSet g1 ((pre ++ rest).map Transfer.toPos) then none
      else getCell g1 r c) ∧
    q2 = (explodedSet g1 ((pre ++ rest).map Transfer.toPos)).flatMap
      (fun d => transfersFrom d.1 d.2 p) ∧
    totalCharge g2 +
        ((explodedSet g1 ((pre ++ rest).map Transfer.toPos)).map (chargeAt g1)).sum =
      totalCharge g1 ∧
    WF g2 ∧
    (∀ t ∈ rest, t.toPos ∉ explodedSet g1 (pre.map Transfer.toPos)) ∧
    (∀ t ∈ rest, ∃ cell, getCell g1 t.toPos.1 t.toPos.2 = some cell) ∧
    (∀ d : Nat × Nat, explodesAt g1 d = true →
      d ∉ explodedSet g1 (pre.map Transfer.toPos) →
      List.count d (rest.map Transfer.toPos) ≤ 1) := by
  intro rest
  induction rest with
  | nil =>
    intro pre gA qA g2 q2 hR hq hch hWA hok
    simp only [detectLoop, Except.ok.injEq, Prod.mk.injEq] at hok
    obtain ⟨hg, hq2⟩ := hok
    subst hg
    subst hq2
    refine ⟨by simpa using hR, by simpa using hq, by simpa using hch, hWA, ?_, ?_, ?_⟩
    · intro t ht; exact absurd ht (List.not_mem_nil t)
    · intro t ht; exact absurd ht (List.not_mem_nil t)
    · intro d _ _; simp
  | cons t rest2 ih =>
    intro pre gA qA g2 q2 hR hq hch hWA hok
    have hread : getCell gA t.toPos.1 t.toPos.2 =
        if t.toPos ∈ explodedSet g1 (pre.map Transfer.toPos) then none
        else getCell g1 t.toPos.1 t.toPos.2 := by
      have h := hR t.toPos.1 t.toPos.2
      rwa [Prod.mk.eta] at h
    simp only [detectLoop] at hok
    by_cases hmem : t.toPos ∈ explodedSet g1 (pre.map Transfer.toPos)
    · rw [if_pos hmem] at hread
      rw [hread] at hok
      exact absurd hok (by simp)
    · rw [if_neg hmem] at hread
      cases hg1 : getCell g1 t.toPos.1 t.toPos.2 with
      | none =>
        rw [hread, hg1] at hok
        exact absurd hok (by simp)
      | some cell =>
        rw [hread, hg1] at hok
        dsimp only at hok
        obtain ⟨hbr, hbc⟩ := bounds_of_getCell_some hW1 hg1
        have hpremap : (pre ++ [t]).map Transfer.toPos =
            pre.map Transfer.toPos ++ [t.toPos] := by
          rw [List.map_append]; rfl
        have happcons : pre ++ t :: rest2 = (pre ++ [t]) ++ rest2 := by
          rw [List.append_assoc]; rfl
        by_cases hcrit : getCriticalMass t.toPos.1 t.toPos.2 ≤ cell.count
        · rw [if_pos hcrit] at hok
          have hx : explodesAt g1 t.toPos = true := by
            simp only [explodesAt]
            rw [hg1]
            simpa using hcrit
          have hnotpre : t.toPos ∉ pre.map Transfer.toPos := by
            intro hmem2
            exact hmem ((mem_explodedSet g1 _ _).mpr ⟨hmem2, hx⟩)
          have hEeq : explodedSet g1 ((pre ++ [t]).map Transfer.toPos) =
              explodedSet g1 (pre.map Transfer.toPos) ++ [t.toPos] := by
            rw [hpremap]
            exact explodedSet_append_true g1 _ _ hnotpre hx
          have hchargeT : chargeAt g1 t.toPos = cell.count := by
            rw [chargeAt_eq, hg1]; rfl
          -- invariants for the recursive call
          have hR2 : ∀ r c, getCell (setCell gA t.toPos.1 t.toPos.2 none) r c =
              if (r, c) ∈ explodedSet g1 ((pre ++ [t]).map Transfer.toPos) then none
              else getCell g1 r c := by
            intro r c
            rw [hEeq]
            rcases eq_or_ne (r, c) t.toPos with heq | hne
            · have hr1 : r = t.toPos.1 := by rw [← heq]
              have hc1 : c = t.toPos.2 := by rw [← heq]
              subst hr1; subst hc1
              rw [getCell_setCell_self gA none hWA hbr hbc, if_pos]
              rw [Prod.mk.eta, List.mem_append]
              exact Or.inr (by simp)
            · have hne2 : t.toPos.1 ≠ r ∨ t.toPos.2 ≠ c := by
                by_contra hcon
                push_neg at hcon
                exact hne (by rw [← hcon.1, ← hcon.2])
              rw [getCell_setCell_ne gA none hne2, hR r c]
              have : ((r, c) ∈ explodedSet g1 (pre.map Transfer.toPos) ++ [t.toPos]) ↔
                  ((r, c) ∈ explodedSet g1 (pre.map Transfer.toPos)) := by
                rw [List.mem_append]
                simp only [List.mem_singleton]
                exact ⟨fun h => h.resolve_right hne, Or.inl⟩
              rw [if_congr this rfl rfl]
          have hq2i : qA ++ transfersFrom t.toPos.1 t.toPos.2 p =
              (explodedSet g1 ((pre ++ [t]).map Transfer.toPos)).flatMap
                (fun d => transfersFrom d.1 d.2 p) := by
            rw [hEeq, List.flatMap_append, hq]
            simp
          have hch2 : totalCharge (setCell gA t.toPos.1 t.toPos.2 none) +
              ((explodedSet g1 ((pre ++ [t]).map Transfer.toPos)).map (chargeAt g1)).sum =
              totalCharge g1 := by
            have hacc := totalCharge_setCell gA none hWA hbr hbc
            rw [hread, hg1] at hacc
            simp only [chargeOf] at hacc
            rw [hEeq, List.map_append, List.sum_append]
            simp only [List.map_cons, List.map_nil, List.sum_cons, List.sum_nil]
            rw [hchargeT]
            omega
          have hWA2 : WF (setCell gA t.toPos.1 t.toPos.2 none) :=
            WF_setCell gA _ _ none hWA
          have hrec := ih (pre ++ [t]) (setCell gA t.toPos.1 t.toPos.2 none)
            (qA ++ transfersFrom t.toPos.1 t.toPos.2 p) g2 q2 hR2 hq2i hch2 hWA2 hok
          obtain ⟨c1, c2, c3, c4, c5, c6, c7⟩ := hrec
          rw [← happcons] at c1 c2 c3
          refine ⟨c1, c2, c3, c4, ?_, ?_, ?_⟩
          · intro u hu
            rcases List.mem_cons.mp hu with rfl | hu2
            · exact hmem
            · intro hinE
              exact c5 u hu2 (by rw [hEeq, List.mem_append]; exact Or.inl hinE)
          · intro u hu
            rcases List.mem_cons.mp hu with rfl | hu2
            · exact ⟨cell, hg1⟩
            · exact c6 u hu2
          · intro e hxe henot
            rcases eq_or_ne e t.toPos with heq | hne
            · have hzero : List.count e (rest2.map Transfer.toPos) = 0 := by
                apply List.count_eq_zero_of_not_mem
                intro hmem3
                rw [List.mem_map] at hmem3
                obtain ⟨u, hu, hue⟩ := hmem3
                exact c5 u hu (by
                  rw [hEeq, List.mem_append, hue, heq]
                  exact Or.inr (by simp))
              rw [List.map_cons, List.count_cons, hzero]
              simp [heq]
            · have h7 := c7 e hxe (by
                rw [hEeq, List.mem_append]
                rintro (h | h)
                · exact henot h
                · exact hne (by simpa using h))
              rw [List.map_cons, List.count_cons]
              simp only [beq_iff_eq]
              rw [if_neg (fun hc => hne hc.symm)]
              omega
        · rw [if_neg hcrit] at hok
          have hx : explodesAt g1 t.toPos = false := by
            simp only [explodesAt]
            rw [hg1]
            simpa using hcrit
          have hEeq : explodedSet g1 ((pre ++ [t]).map Transfer.toPos) =
              explodedSet g1 (pre.map Transfer.toPos) := by
            rw [hpremap]
            exact explodedSet_append_false g1 _ _ hx
          have hrec := ih (pre ++ [t]) gA qA g2 q2
            (by rw [hEeq]; exact hR) (by rw [hEeq]; exact hq)
            (by rw [hEeq]; exact hch) hWA hok
          obtain ⟨c1, c2, c3, c4, c5, c6, c7⟩ := hrec
          rw [← happcons] at c1 c2 c3
          refine ⟨c1, c2, c3, c4, ?_, ?_, ?_⟩
          · intro u hu
            rcases List.mem_cons.mp hu with rfl | hu2
            · exact hmem
            · exact fun hinE => c5 u hu2 (by rw [hEeq]; exact hinE)
          · intro u hu
            rcases List.mem_cons.mp hu with rfl | hu2
            · exact ⟨cell, hg1⟩
            · exact c6 u hu2
          · intro e hxe henot
            have hne : e ≠ t.toPos := by
              intro he
              rw [he, hx] at hxe
              exact Bool.noConfusion hxe
            rw [List.map_cons, List.count_cons]
            have h7 := c7 e hxe (by rw [hEeq]; exact henot)
            simp only [beq_iff_eq]
            rw [if_neg (fun hc => hne hc.symm)]
            omega

theorem waveStep_char (p : Nat) (W : List Transfer) (g g2 : Grid) (q2 : List Transfer)
    (hW : WF g) (hok : waveStep p W g = .ok (g2, q2)) :
    (∀ r c, getCell g2 r c =
      if (r, c) ∈ explodedSet (applyWave p g W) (W.map Transfer.toPos) then none
      else getCell (applyWave p g W) r c) ∧
    q2 = (explodedSet (applyWave p g W) (W.map Transfer.toPos)).flatMap
      (fun d => transfersFrom d.1 d.2 p) ∧
    totalCharge g2 +
        ((explodedSet (applyWave p g W) (W.map Transfer.toPos)).map
          (chargeAt (applyWave p g W))).sum = totalCharge (applyWave p g W) ∧
    WF g2 ∧
    (∀ t ∈ W, ∃ cell, getCell (applyWave p g W) t.toPos.1 t.toPos.2 = some cell) ∧
    (∀ d : Nat × Nat, explodesAt (applyWave p g W) d = true →
      List.count d (W.map Transfer.toPos) ≤ 1) := by
  have hW1 : WF (applyWave p g W) := (applyWave_char p W g hW).1
  have h := detectLoop_char p (applyWave p g W) hW1 W [] (applyWave p g W) [] g2 q2
    (by intro r c; simp [explodedSet_nil])
    (by simp [explodedSet_nil])
    (by simp [explodedSet_nil])
    hW1 hok
  obtain ⟨c1, c2, c3, c4, _, c6, c7⟩ := h
  simp only [List.nil_append] at c1 c2 c3
  exact ⟨c1, c2, c3, c4, c6, fun d hd => c7 d hd (by simp [explodedSet_nil])⟩

theorem specWaveGo_char (snap : Grid) (p : Nat) (hWs : WF snap) :
    ∀ (pending : List (Nat × Nat)) (gA : Grid) (qA : List Transfer)
      (D : List (Nat × Nat)),
    WF gA →
    (∀ r c, getCell gA r c = if (r, c) ∈ D then none else getCell snap r c) →
    WF (specWaveGo snap p (gA, qA) pending).1 ∧
    (∀ r c, getCell (specWaveGo snap p (gA, qA) pending).1 r c =
      if (r, c) ∈ D ++ pending.filter (fun d => explodesAt snap d) then none
      else getCell snap r c) ∧
    (specWaveGo snap p (gA, qA) pending).2 =
      qA ++ (pending.filter (fun d => explodesAt snap d)).flatMap
        (fun d => transfersFrom d.1 d.2 p) := by
  intro pending
  induction pending with
  | nil =>
    intro gA qA D hWA hR
    refine ⟨hWA, ?_, by simp [specWaveGo]⟩
    intro r c
    simpa [specWaveGo] using hR r c
  | cons d rest ihp =>
    intro gA qA D hWA hR
    by_cases hx : explodesAt snap d = true
    · have hstep : specWaveGo snap p (gA, qA) (d :: rest) =
          specWaveGo snap p
            (setCell gA d.1 d.2 none, qA ++ transfersFrom d.1 d.2 p) rest := by
        simp [specWaveGo, hx]
      have hsome : ∃ cell, getCell snap d.1 d.2 = some cell := by
        unfold explodesAt at hx
        cases hg : getCell snap d.1 d.2 with
        | none => rw [hg] at hx; exact Bool.noConfusion hx
        | some cell => exact ⟨cell, rfl⟩
      obtain ⟨cell, hcell⟩ := hsome
      obtain ⟨hbr, hbc⟩ := bounds_of_getCell_some hWs hcell
      have hR2 : ∀ r c, getCell (setCell gA d.1 d.2 none) r c =
          if (r, c) ∈ D ++ [d] then none else getCell snap r c := by
        intro r c
        rcases eq_or_ne (r, c) d with heq | hne
        · have hr1 : r = d.1 := by rw [← heq]
          have hc1 : c = d.2 := by rw [← heq]
          subst hr1; subst hc1
          rw [getCell_setCell_self gA none hWA hbr hbc,
            if_pos (by rw [List.mem_append, Prod.mk.eta]; exact Or.inr (by simp))]
        · have hne2 : d.1 ≠ r ∨ d.2 ≠ c := by
            by_contra hcon
            push_neg at hcon
            exact hne (by rw [← hcon.1, ← hcon.2])
          rw [getCell_setCell_ne gA none hne2, hR r c]
          have hiff : ((r, c) ∈ D ++ [d]) ↔ ((r, c) ∈ D) := by
            rw [List.mem_append]
            simp only [List.mem_singleton]
            exact ⟨fun h => h.resolve_right hne, Or.inl⟩
          rw [if_congr hiff rfl rfl]
      obtain ⟨i1, i2, i3⟩ := ihp (setCell gA d.1 d.2 none)
        (qA ++ transfersFrom d.1 d.2 p) (D ++ [d]) (WF_setCell gA _ _ none hWA) hR2
      rw [hstep]
      refine ⟨i1, ?_, ?_⟩
      · intro r c
        have hiff : ((r, c) ∈ D ++ [d] ++ List.filter (fun x => explodesAt snap x) rest) ↔
            ((r, c) ∈ D ++ d :: List.filter (fun x => explodesAt snap x) rest) := by
          simp [List.mem_append, or_assoc]
        rw [i2 r c, List.filter_cons_of_pos hx, if_congr hiff rfl rfl]
      · rw [i3, List.filter_cons_of_pos hx, List.flatMap_cons, List.append_assoc]
    · have hxf : explodesAt snap d = false := by
        cases hxx : explodesAt snap d with
        | false => rfl
        | true => exact absurd hxx hx
      have hstep : specWaveGo snap p (gA, qA) (d :: rest) =
          specWaveGo snap p (gA, qA) rest := by
        simp [specWaveGo, hxf]
      obtain ⟨i1, i2, i3⟩ := ihp gA qA D hWA hR
      rw [hstep, List.filter_cons_of_neg (by rw [hxf]; exact Bool.false_ne_true)]
      exact ⟨i1, i2, i3⟩

/-- C1 (amended): whenever the source's wave step completes without
the null-read fault, its result — cleared cells, settled grid and the
next queue — is exactly that of the spec-described pass: examine each
distinct destination position of the wave exactly once (in first
occurrence order), deciding every explosion against the one fixed
post-application pre-wave snapshot, so no explosion observes the
effects of another explosion of the same wave.  (As stated, with
duplicates examined and re-read, the claim fails on reachable input:
see the counterexample.) -/
theorem wave_step_matches_spec_on_success :
    ∀ (p : Nat) (W : List Transfer) (g g2 : Grid) (q2 : List Transfer),
    WF g → waveStep p W g = .ok (g2, q2) →
    (firstDedup (W.map Transfer.toPos)).Nodup ∧
    (∀ d, d ∈ firstDedup (W.map Transfer.toPos) ↔ d ∈ W.map Transfer.toPos) ∧
    specWave (applyWave p g W) p (firstDedup (W.map Transfer.toPos)) = (g2, q2) := by
  intro p W g g2 q2 hW hok
  obtain ⟨c1, c2, _, c4, _, _⟩ := waveStep_char p W g g2 q2 hW hok
  refine ⟨firstDedup_nodup _, fun d => mem_firstDedup _ d, ?_⟩
  have hW1 : WF (applyWave p g W) := (applyWave_char p W g hW).1
  obtain ⟨s1, s2, s3⟩ := specWaveGo_char (applyWave p g W) p hW1
    (firstDedup (W.map Transfer.toPos)) (applyWave p g W) [] [] hW1
    (by intro r c; simp)
  have hfilter : (firstDedup (W.map Transfer.toPos)).filter
      (fun d => explodesAt (applyWave p g W) d) =
      explodedSet (applyWave p g W) (W.map Transfer.toPos) := rfl
  have hgrid : (specWave (applyWave p g W) p (firstDedup (W.map Transfer.toPos))).1 = g2 := by
    apply grid_ext s1 c4
    intro r c
    rw [s2 r c, c1 r c, hfilter]
    simp
  have hqueue : (specWave (applyWave p g W) p (firstDedup (W.map Transfer.toPos))).2 = q2 := by
    show (specWaveGo (applyWave p g W) p (applyWave p g W, [])
      (firstDedup (W.map Transfer.toPos))).2 = q2
    rw [s3, hfilter, c2]
    simp
  rw [← hgrid, ← hqueue]

/-- C1 witness: the corner-cascade wave, where the source pass and the
spec pass agree. -/
theorem wave_step_matches_spec_on_success_witness :
    specWave (applyWave 0 initialGrid cornerWave) 0
      (firstDedup (cornerWave.map Transfer.toPos)) = (cornerSettled, []) :=
  (wave_step_matches_spec_on_success 0 cornerWave initialGrid cornerSettled []
    (by decide) (by decide)).2.2

theorem WF_placeCell (g : Grid) (r c p : Nat) (hW : WF g) : WF (placeCell g r c p) := by
  unfold placeCell
  cases getCell g r c <;> exact WF_setCell _ _ _ _ hW

/-- C2: charge conservation per wave.  First part: in every completed
detection pass from a board satisfying the settled invariant, the
charge removed from the cells that explode (forming the next wave `q2`)
equals `q2.length`, which is exactly the charge that wave adds when
applied (one unit per transfer); the invariant and well-formedness are
preserved, so this holds wave after wave.  Second part: the same
accounting for the triggering explosion of a move. -/
theorem wave_charge_conservation :
    (∀ (p : Nat) (W : List Transfer) (g g2 : Grid) (q2 : List Transfer),
      WF g → INVgrid g → waveStep p W g = .ok (g2, q2) →
      totalCharge (applyWave p g W) = totalCharge g2 + q2.length ∧
      totalCharge (applyWave p g2 q2) = totalCharge g2 + q2.length ∧
      INVgrid g2 ∧ WF g2) ∧
    (∀ (g : Grid) (r c p : Nat) (gp : Grid) (qp : List Transfer),
      WF g → INVgrid g → r < ROWS → c < COLS →
      enqueueExplosion p (placeCell g r c p) [] r c = (gp, qp) →
      totalCharge (placeCell g r c p) = totalCharge gp + qp.length) := by
  constructor
  · intro p W g g2 q2 hW hINV hok
    have hWaveAll := applyWave_char p W g hW
    have hW1 : WF (applyWave p g W) := hWaveAll.1
    obtain ⟨c1, c2, c3, c4, _, c6⟩ := waveStep_char p W g g2 q2 hW hok
    have helem : ∀ d ∈ explodedSet (applyWave p g W) (W.map Transfer.toPos),
        chargeAt (applyWave p g W) d = getCriticalMass d.1 d.2 := by
      intro d hd
      obtain ⟨hdmem, hdx⟩ := (mem_explodedSet _ _ _).mp hd
      have hsome : ∃ cell, getCell (applyWave p g W) d.1 d.2 = some cell ∧
          getCriticalMass d.1 d.2 ≤ cell.count := by
        unfold explodesAt at hdx
        cases hg : getCell (applyWave p g W) d.1 d.2 with
        | none => rw [hg] at hdx; exact Bool.noConfusion hdx
        | some cell =>
          rw [hg] at hdx
          exact ⟨cell, rfl, of_decide_eq_true hdx⟩
      obtain ⟨cell, hcell, hcrit⟩ := hsome
      obtain ⟨hbr, hbc⟩ := bounds_of_getCell_some hW1 hcell
      have hcount1 : List.count d (W.map Transfer.toPos) = 1 := by
        have hge : 0 < List.count d (W.map Transfer.toPos) :=
          List.count_pos_iff.mpr hdmem
        have hle := c6 d hdx
        omega
      have hchar := (hWaveAll.2.2 d.1 d.2 hbr hbc).1
      rw [Prod.mk.eta] at hchar
      have hinv := hINV d.1 hbr d.2 hbc
      have hA : chargeAt (applyWave p g W) d = cell.count := by
        rw [chargeAt_eq, hcell]; rfl
      have hinv2 : chargeAt g (d.1, d.2) < getCriticalMass d.1 d.2 := hinv
      rw [Prod.mk.eta] at hinv2
      omega
    have hsum : ((explodedSet (applyWave p g W) (W.map Transfer.toPos)).map
        (chargeAt (applyWave p g W))).sum =
        ((explodedSet (applyWave p g W) (W.map Transfer.toPos)).map
          (fun d => getCriticalMass d.1 d.2)).sum := by
      congr 1
      exact List.map_congr_left helem
    have hqlen : q2.length = ((explodedSet (applyWave p g W) (W.map Transfer.toPos)).map
        (fun d => getCriticalMass d.1 d.2)).sum := by
      rw [c2, List.length_flatMap]
      congr 1
      apply List.map_congr_left
      intro d _
      simp only [Function.comp]
      exact transfersFrom_length d.1 d.2 p
    have hq2bounds : ∀ t ∈ q2, t.toPos.1 < ROWS ∧ t.toPos.2 < COLS := by
      intro t ht
      rw [c2, List.mem_flatMap] at ht
      obtain ⟨d, _, htd⟩ := ht
      exact ⟨(transfersFrom_facts d.1 d.2 p t htd).2.2.1,
        (transfersFrom_facts d.1 d.2 p t htd).2.2.2⟩
    refine ⟨by rw [hsum] at c3; omega,
      applyWave_totalCharge p q2 g2 c4 hq2bounds, ?_, c4⟩
    intro r hr c hc
    have hcm := criticalMass_ge_two r hr c hc
    rw [chargeAt_eq, c1 r c]
    by_cases hmem : (r, c) ∈ explodedSet (applyWave p g W) (W.map Transfer.toPos)
    · rw [if_pos hmem]
      simp only [chargeOf]
      omega
    · rw [if_neg hmem]
      by_cases hdest : (r, c) ∈ W.map Transfer.toPos
      · have hxf : explodesAt (applyWave p g W) (r, c) = false := by
          cases hxx : explodesAt (applyWave p g W) (r, c) with
          | false => rfl
          | true => exact absurd ((mem_explodedSet _ _ _).mpr ⟨hdest, hxx⟩) hmem
        unfold explodesAt at hxf
        cases hg : getCell (applyWave p g W) r c with
        | none => simp [chargeOf]; omega
        | some cell =>
          rw [hg] at hxf
          simp only [chargeOf]
          have h2 : ¬ getCriticalMass r c ≤ cell.count := of_decide_eq_false hxf
          omega
      · have hcnt0 : List.count (r, c) (W.map Transfer.toPos) = 0 :=
          List.count_eq_zero_of_not_mem hdest
        rw [hWaveAll.2.1 r c hcnt0]
        have hinv := hINV r hr c hc
        rw [chargeAt_eq] at hinv
        exact hinv
  · intro g r c p gp qp hW hINV hr hc heq
    have hWplaced : WF (placeCell g r c p) := WF_placeCell g r c p hW
    have hcm := criticalMass_ge_two r hr c hc
    cases hg : getCell g r c with
    | some cell =>
      have hplaced : getCell (placeCell g r c p) r c = some ⟨cell.player, cell.count + 1⟩ := by
        unfold placeCell
        rw [hg]
        exact getCell_setCell_self g _ hW hr hc
      have hinv := hINV r hr c hc
      rw [chargeAt_eq, hg] at hinv
      simp only [chargeOf] at hinv
      unfold enqueueExplosion at heq
      rw [hplaced] at heq
      dsimp only at heq
      by_cases hcrit : getCriticalMass r c ≤ cell.count + 1
      · rw [if_pos hcrit] at heq
        rw [Prod.mk.injEq] at heq
        obtain ⟨hgp, hqp⟩ := heq
        have hacc := totalCharge_setCell (placeCell g r c p) none hWplaced hr hc
        rw [hplaced] at hacc
        simp only [chargeOf] at hacc
        have hlen : qp.length = getCriticalMass r c := by
          rw [← hqp]
          simp [transfersFrom_length]
        rw [← hgp]
        omega
      · rw [if_neg hcrit] at heq
        rw [Prod.mk.injEq] at heq
        obtain ⟨hgp, hqp⟩ := heq
        rw [← hgp, ← hqp]
        simp
    | none =>
      have hplaced : getCell (placeCell g r c p) r c = some ⟨p, 1⟩ := by
        unfold placeCell
        rw [hg]
        exact getCell_setCell_self g _ hW hr hc
      unfold enqueueExplosion at heq
      rw [hplaced] at heq
      dsimp only at heq
      rw [if_neg (by omega)] at heq
      rw [Prod.mk.injEq] at heq
      obtain ⟨hgp, hqp⟩ := heq
      rw [← hgp, ← hqp]
      simp

theorem setCell_oob (g : Grid) {r c : Nat} (v : Option Cell) (hW : WF g)
    (h : ¬(r < ROWS ∧ c < COLS)) : setCell g r c v = g := by
  apply grid_ext (WF_setCell g r c v hW) hW
  intro rp cp
  rcases eq_or_ne (r, c) (rp, cp) with heq | hne
  · have h1 : r = rp := congrArg Prod.fst heq
    have h2 : c = cp := congrArg Prod.snd heq
    subst h1
    subst h2
    rw [getCell_oob (WF_setCell g r c v hW) h, getCell_oob hW h]
  · have hne2 : r ≠ rp ∨ c ≠ cp := by
      by_contra hcon
      push_neg at hcon
      exact hne (by rw [hcon.1, hcon.2])
    exact getCell_setCell_ne g v hne2

theorem POS_applyWave (p : Nat) (W : List Transfer) (g : Grid)
    (hW : WF g) (hPOS : POSgrid g) : POSgrid (applyWave p g W) := by
  intro r hr c hc
  have hchar := applyWave_char p W g hW
  by_cases h0 : List.count (r, c) (W.map Transfer.toPos) = 0
  · have hgc := hchar.2.1 r c h0
    rcases hPOS r hr c hc with h | h
    · left; rw [hgc, h]
    · right
      rw [chargeAt_eq] at h ⊢
      simp only [] at h ⊢
      rw [hgc]
      exact h
  · right
    have hca := (hchar.2.2 r c hr hc).1
    omega

theorem POS_waveStep (p : Nat) (W : List Transfer) (g g2 : Grid) (q2 : List Transfer)
    (hW : WF g) (hPOS : POSgrid g) (hok : waveStep p W g = .ok (g2, q2)) :
    POSgrid g2 := by
  obtain ⟨c1, _, _, _, _, _⟩ := waveStep_char p W g g2 q2 hW hok
  have hPOS1 := POS_applyWave p W g hW hPOS
  intro r hr c hc
  rw [chargeAt_eq, c1 r c]
  by_cases hmem : (r, c) ∈ explodedSet (applyWave p g W) (W.map Transfer.toPos)
  · rw [if_pos hmem]
    exact Or.inl rfl
  · rw [if_neg hmem]
    rcases hPOS1 r hr c hc with h | h
    · left; rw [h]
    · right
      rw [chargeAt_eq] at h
      exact h

theorem waveStep_INV (p : Nat) (W : List Transfer) (g g2 : Grid) (q2 : List Transfer)
    (hW : WF g) (hINV : INVgrid g) (hok : waveStep p W g = .ok (g2, q2)) :
    INVgrid g2 := by
  have hWaveAll := applyWave_char p W g hW
  obtain ⟨c1, _, _, _, _, _⟩ := waveStep_char p W g g2 q2 hW hok
  intro r hr c hc
  have hcm := criticalMass_ge_two r hr c hc
  rw [chargeAt_eq, c1 r c]
  by_cases hmem : (r, c) ∈ explodedSet (applyWave p g W) (W.map Transfer.toPos)
  · rw [if_pos hmem]
    simp only [chargeOf]
    omega
  · rw [if_neg hmem]
    by_cases hdest : (r, c) ∈ W.map Transfer.toPos
    · have hxf : explodesAt (applyWave p g W) (r, c) = false := by
        cases hxx : explodesAt (applyWave p g W) (r, c) with
        | false => rfl
        | true => exact absurd ((mem_explodedSet _ _ _).mpr ⟨hdest, hxx⟩) hmem
      unfold explodesAt at hxf
      cases hg : getCell (applyWave p g W) r c with
      | none => simp [chargeOf]; omega
      | some cell =>
        rw [hg] at hxf
        simp only [chargeOf]
        have h2 : ¬ getCriticalMass r c ≤ cell.count := of_decide_eq_false hxf
        omega
    · have hcnt0 : List.count (r, c) (W.map Transfer.toPos) = 0 :=
        List.count_eq_zero_of_not_mem hdest
      rw [hWaveAll.2.1 r c hcnt0]
      have hinv := hINV r hr c hc
      rw [chargeAt_eq] at hinv
      exact hinv

theorem waveStep_owns (p : Nat) (t : Transfer) (ts : List Transfer) (g g2 : Grid)
    (hW : WF g) (hok : waveStep p (t :: ts) g = .ok (g2, [])) :
    ownsCell g2 p := by
  have hW1 : WF (applyWave p g (t :: ts)) := (applyWave_char p (t :: ts) g hW).1
  obtain ⟨c1, c2, _, _, c5, _⟩ := waveStep_char p (t :: ts) g g2 [] hW hok
  have hE : explodedSet (applyWave p g (t :: ts)) ((t :: ts).map Transfer.toPos) = [] := by
    cases hEcase : explodedSet (applyWave p g (t :: ts)) ((t :: ts).map Transfer.toPos) with
    | nil => rfl
    | cons e E2 =>
      exfalso
      have he : e ∈ explodedSet (applyWave p g (t :: ts)) ((t :: ts).map Transfer.toPos) := by
        rw [hEcase]; simp
      obtain ⟨_, hex⟩ := (mem_explodedSet _ _ _).mp he
      have hsome : ∃ cell, getCell (applyWave p g (t :: ts)) e.1 e.2 = some cell := by
        unfold explodesAt at hex
        cases hg : getCell (applyWave p g (t :: ts)) e.1 e.2 with
        | none => rw [hg] at hex; exact Bool.noConfusion hex
        | some cell => exact ⟨cell, rfl⟩
      obtain ⟨cell, hcell⟩ := hsome
      obtain ⟨hbr, hbc⟩ := bounds_of_getCell_some hW1 hcell
      have := c2
      rw [hEcase, List.flatMap_cons] at this
      have hne := transfersFrom_ne_nil p hbr hbc
      cases htf : transfersFrom e.1 e.2 p with
      | nil => exact hne htf
      | cons u us =>
        rw [htf] at this
        exact List.noConfusion this
  have hgeq : ∀ r c, getCell g2 r c = getCell (applyWave p g (t :: ts)) r c := by
    intro r c
    rw [c1 r c, hE]
    simp
  obtain ⟨cell, hcell⟩ := c5 t (by simp)
  obtain ⟨hbr, hbc⟩ := bounds_of_getCell_some hW1 hcell
  have hcnt : 0 < List.count t.toPos ((t :: ts).map Transfer.toPos) :=
    List.count_pos_iff.mpr (by simp)
  have howner := ((applyWave_char p (t :: ts) g hW).2.2 t.toPos.1 t.toPos.2 hbr hbc).2
    (by rw [Prod.mk.eta]; exact hcnt)
  rw [Prod.mk.eta] at howner
  exact ⟨t.toPos.1, t.toPos.2, _, by rw [hgeq]; exact howner, rfl⟩

theorem stepThroughQueue_pres (p : Nat) :
    ∀ (fuel : Nat) (q : List Transfer) (g gf : Grid) (ws : List (List Transfer)),
    WF g → stepThroughQueue p fuel q g = .ok gf ws →
    WF gf ∧
    (INVgrid g → INVgrid gf) ∧
    (POSgrid g → POSgrid gf) ∧
    ((q = [] → ownsCell g p) → ownsCell gf p) := by
  intro fuel
  induction fuel with
  | zero =>
    intro q g gf ws hW hok
    cases q with
    | nil =>
      simp only [stepThroughQueue, StepResult.ok.injEq] at hok
      obtain ⟨rfl, rfl⟩ := hok
      exact ⟨hW, id, id, fun h => h rfl⟩
    | cons t ts =>
      simp only [stepThroughQueue] at hok
      exact absurd hok (by simp)
  | succ n ih =>
    intro q g gf ws hW hok
    cases q with
    | nil =>
      simp only [stepThroughQueue, StepResult.ok.injEq] at hok
      obtain ⟨rfl, rfl⟩ := hok
      exact ⟨hW, id, id, fun h => h rfl⟩
    | cons t ts =>
      simp only [stepThroughQueue] at hok
      cases hws : waveStep p (t :: ts) g with
      | error e =>
        rw [hws] at hok
        exact absurd hok (by simp)
      | ok pair =>
        obtain ⟨g2, q2⟩ := pair
        rw [hws] at hok
        dsimp only at hok
        cases hrec : stepThroughQueue p n q2 g2 with
        | ok gf2 ws2 =>
          rw [hrec] at hok
          simp only [StepResult.ok.injEq] at hok
          obtain ⟨rfl, rfl⟩ := hok
          have hWF2 := (waveStep_char p (t :: ts) g g2 q2 hW hws).2.2.2.1
          obtain ⟨jWF, jINV, jPOS, jOwn⟩ := ih q2 g2 gf2 ws2 hWF2 hrec
          refine ⟨jWF, ?_, ?_, ?_⟩
          · intro hINV
            exact jINV (waveStep_INV p (t :: ts) g g2 q2 hW hINV hws)
          · intro hPOS
            exact jPOS (POS_waveStep p (t :: ts) g g2 q2 hW hPOS hws)
          · intro _
            apply jOwn
            intro hq2
            subst hq2
            exact waveStep_owns p t ts g g2 hW hws
        | crash x y =>
          rw [hrec] at hok
          exact absurd hok (by simp)
        | fuelOut =>
          rw [hrec] at hok
          exact absurd hok (by simp)

theorem placeCell_oob (g : Grid) {r c : Nat} (p : Nat) (hW : WF g)
    (h : ¬(r < ROWS ∧ c < COLS)) : placeCell g r c p = g := by
  unfold placeCell
  rw [getCell_oob hW h]
  exact setCell_oob g _ hW h

theorem WF_processExplosions (fuel : Nat) (g0 gf : Grid) (r c p : Nat)
    (ws : List (List Transfer)) (hW : WF g0)
    (hok : processExplosions fuel g0 r c p = .ok gf ws) :
    WF gf ∧
    ((INVgrid (enqueueExplosion p g0 [] r c).1) → INVgrid gf) ∧
    ((POSgrid (enqueueExplosion p g0 [] r c).1) → POSgrid gf) ∧
    ((((enqueueExplosion p g0 [] r c).2 = []) →
        ownsCell (enqueueExplosion p g0 [] r c).1 p) → ownsCell gf p) := by
  unfold processExplosions at hok
  have hWseed : WF (enqueueExplosion p g0 [] r c).1 := by
    unfold enqueueExplosion
    cases getCell g0 r c with
    | none => exact hW
    | some cell =>
      by_cases hcrit : getCriticalMass r c ≤ cell.count
      · simp only [if_pos hcrit]
        exact WF_setCell _ _ _ _ hW
      · simp only [if_neg hcrit]
        exact hW
  exact stepThroughQueue_pres p fuel _ _ gf ws hWseed hok

theorem handleClick_moved_spec :
    ∀ (fuel : Nat) (s : GameState) (r c : Nat) (sp : GameState),
    handleClick fuel s r c = .moved sp →
    ∃ finalGrid ws,
      processExplosions fuel (placeCell s.grid r c s.currentPlayer) r c s.currentPlayer =
        .ok finalGrid ws ∧
      sp.grid = finalGrid ∧
      sp.hasPlayed = s.hasPlayed.set s.currentPlayer true ∧
      sp.processing = s.processing ∧
      sp.gameOver = ((s.hasPlayed.set s.currentPlayer true).all id &&
        checkWin finalGrid s.currentPlayer) ∧
      (sp.gameOver = true → sp.currentPlayer = s.currentPlayer) ∧
      (sp.gameOver = false → sp.currentPlayer = (s.currentPlayer + 1) % players.length) ∧
      s.gameOver = false ∧ s.processing = false ∧
      (∀ cell, getCell s.grid r c = some cell → cell.player = s.currentPlayer) := by
  intro fuel s r c sp hmv
  unfold handleClick at hmv
  by_cases hguard : (s.processing || s.gameOver) = true
  · rw [if_pos hguard] at hmv
    exact absurd hmv (by simp)
  · rw [if_neg hguard] at hmv
    have hpf : s.processing = false := by
      cases hp : s.processing
      · rfl
      · rw [hp] at hguard; simp at hguard
    have hgf : s.gameOver = false := by
      cases hgo : s.gameOver
      · rfl
      · rw [hgo] at hguard; simp at hguard
    cases hcell : getCell s.grid r c with
    | some cell =>
      rw [hcell] at hmv
      dsimp only at hmv
      by_cases hok : (cell.player == s.currentPlayer) = true
      · rw [if_pos hok] at hmv
        cases hproc : processExplosions fuel (placeCell s.grid r c s.currentPlayer) r c
            s.currentPlayer with
        | ok finalGrid ws =>
          rw [hproc] at hmv
          dsimp only at hmv
          refine ⟨finalGrid, ws, rfl, ?_⟩
          by_cases hwin : ((s.hasPlayed.set s.currentPlayer true).all id &&
              checkWin finalGrid s.currentPlayer) = true
          · rw [if_pos hwin] at hmv
            simp only [ClickResult.moved.injEq] at hmv
            subst hmv
            refine ⟨rfl, rfl, rfl, by simp [hwin], fun _ => rfl, ?_, hgf, hpf, ?_⟩
            · intro hfalse
              exact absurd hfalse (by simp)
            · intro cell2 hcell2
              cases hcell2
              exact eq_of_beq hok
          · rw [if_neg hwin] at hmv
            simp only [ClickResult.moved.injEq] at hmv
            subst hmv
            refine ⟨rfl, rfl, rfl, ?_, ?_, fun _ => rfl, hgf, hpf, ?_⟩
            · show s.gameOver = _
              cases hw2 : ((s.hasPlayed.set s.currentPlayer true).all id &&
                  checkWin finalGrid s.currentPlayer) with
              | false => exact hgf
              | true => exact absurd hw2 hwin
            · intro htrue
              have htrue2 : s.gameOver = true := htrue
              rw [hgf] at htrue2
              exact Bool.noConfusion htrue2
            · intro cell2 hcell2
              cases hcell2
              exact eq_of_beq hok
        | crash x y =>
          rw [hproc] at hmv
          exact absurd hmv (by simp)
        | fuelOut =>
          rw [hproc] at hmv
          exact absurd hmv (by simp)
      · rw [if_neg hok] at hmv
        exact absurd hmv (by simp)
    | none =>
      rw [hcell] at hmv
      dsimp only at hmv
      rw [if_pos rfl] at hmv
      cases hproc : processExplosions fuel (placeCell s.grid r c s.currentPlayer) r c
          s.currentPlayer with
      | ok finalGrid ws =>
        rw [hproc] at hmv
        dsimp only at hmv
        refine ⟨finalGrid, ws, rfl, ?_⟩
        by_cases hwin : ((s.hasPlayed.set s.currentPlayer true).all id &&
            checkWin finalGrid s.currentPlayer) = true
        · rw [if_pos hwin] at hmv
          simp only [ClickResult.moved.injEq] at hmv
          subst hmv
          refine ⟨rfl, rfl, rfl, by simp [hwin], fun _ => rfl, ?_, hgf, hpf, ?_⟩
          · intro hfalse
            exact absurd hfalse (by simp)
          · intro cell2 hcell2
            exact Option.noConfusion hcell2
        · rw [if_neg hwin] at hmv
          simp only [ClickResult.moved.injEq] at hmv
          subst hmv
          refine ⟨rfl, rfl, rfl, ?_, ?_, fun _ => rfl, hgf, hpf, ?_⟩
          · show s.gameOver = _
            cases hw2 : ((s.hasPlayed.set s.currentPlayer true).all id &&
                checkWin finalGrid s.currentPlayer) with
            | false => exact hgf
            | true => exact absurd hw2 hwin
          · intro htrue
            have htrue2 : s.gameOver = true := htrue
            rw [hgf] at htrue2
            exact Bool.noConfusion htrue2
          · intro cell2 hcell2
            exact Option.noConfusion hcell2
      | crash x y =>
        rw [hproc] at hmv
        exact absurd hmv (by simp)
      | fuelOut =>
        rw [hproc] at hmv
        exact absurd hmv (by simp)

theorem seeded_INV_POS (g : Grid) (r c p : Nat) (hW : WF g) :
    (INVgrid g → INVgrid (enqueueExplosion p (placeCell g r c p) [] r c).1) ∧
    (POSgrid g → POSgrid (enqueueExplosion p (placeCell g r c p) [] r c).1) := by
  by_cases hb : r < ROWS ∧ c < COLS
  · obtain ⟨hr, hc⟩ := hb
    have hcm := criticalMass_ge_two r hr c hc
    cases hg : getCell g r c with
    | some cell =>
      have hplaced_eq : placeCell g r c p =
          setCell g r c (some ⟨cell.player, cell.count + 1⟩) := by
        unfold placeCell; rw [hg]
      have hpc : getCell (placeCell g r c p) r c = some ⟨cell.player, cell.count + 1⟩ := by
        rw [hplaced_eq]; exact getCell_setCell_self g _ hW hr hc
      have hplaced_ne : ∀ rp cp, (r ≠ rp ∨ c ≠ cp) →
          getCell (placeCell g r c p) rp cp = getCell g rp cp := by
        intro rp cp hne
        rw [hplaced_eq]; exact getCell_setCell_ne g _ hne
      have henq : enqueueExplosion p (placeCell g r c p) [] r c =
          if getCriticalMass r c ≤ cell.count + 1 then
            (setCell (placeCell g r c p) r c none, [] ++ transfersFrom r c p)
          else (placeCell g r c p, []) := by
        unfold enqueueExplosion
        rw [hpc]
      by_cases hcrit : getCriticalMass r c ≤ cell.count + 1
      · rw [henq, if_pos hcrit]
        have hWp := WF_placeCell g r c p hW
        constructor
        · intro hINV rp hrp cp hcp
          rcases eq_or_ne (r, c) (rp, cp) with heq | hne
          · have h1 : r = rp := congrArg Prod.fst heq
            have h2 : c = cp := congrArg Prod.snd heq
            subst h1; subst h2
            rw [chargeAt_eq]
            simp only []
            rw [getCell_setCell_self _ none hWp hr hc]
            simp only [chargeOf]
            have hge2 := criticalMass_ge_two r hrp c hcp
            omega
          · have hne2 : r ≠ rp ∨ c ≠ cp := by
              by_contra hcon
              push_neg at hcon
              exact hne (by rw [hcon.1, hcon.2])
            rw [chargeAt_eq]
            simp only []
            rw [getCell_setCell_ne _ none hne2, hplaced_ne rp cp hne2]
            have hI := hINV rp hrp cp hcp
            rw [chargeAt_eq] at hI
            exact hI
        · intro hPOS rp hrp cp hcp
          rcases eq_or_ne (r, c) (rp, cp) with heq | hne
          · have h1 : r = rp := congrArg Prod.fst heq
            have h2 : c = cp := congrArg Prod.snd heq
            subst h1; subst h2
            left
            exact getCell_setCell_self _ none hWp hr hc
          · have hne2 : r ≠ rp ∨ c ≠ cp := by
              by_contra hcon
              push_neg at hcon
              exact hne (by rw [hcon.1, hcon.2])
            rcases hPOS rp hrp cp hcp with h | h
            · left
              rw [getCell_setCell_ne _ none hne2, hplaced_ne rp cp hne2, h]
            · right
              rw [chargeAt_eq] at h ⊢
              simp only [] at h ⊢
              rw [getCell_setCell_ne _ none hne2, hplaced_ne rp cp hne2]
              exact h
      · rw [henq, if_neg hcrit]
        constructor
        · intro hINV rp hrp cp hcp
          rcases eq_or_ne (r, c) (rp, cp) with heq | hne
          · have h1 : r = rp := congrArg Prod.fst heq
            have h2 : c = cp := congrArg Prod.snd heq
            subst h1; subst h2
            rw [chargeAt_eq]
            simp only []
            rw [hpc]
            simp only [chargeOf]
            omega
          · have hne2 : r ≠ rp ∨ c ≠ cp := by
              by_contra hcon
              push_neg at hcon
              exact hne (by rw [hcon.1, hcon.2])
            rw [chargeAt_eq]
            simp only []
            rw [hplaced_ne rp cp hne2]
            have hI := hINV rp hrp cp hcp
            rw [chargeAt_eq] at hI
            exact hI
        · intro hPOS rp hrp cp hcp
          rcases eq_or_ne (r, c) (rp, cp) with heq | hne
          · have h1 : r = rp := congrArg Prod.fst heq
            have h2 : c = cp := congrArg Prod.snd heq
            subst h1; subst h2
            right
            rw [chargeAt_eq]
            simp only []
            rw [hpc]
            simp [chargeOf]
          · have hne2 : r ≠ rp ∨ c ≠ cp := by
              by_contra hcon
              push_neg at hcon
              exact hne (by rw [hcon.1, hcon.2])
            rcases hPOS rp hrp cp hcp with h | h
            · left
              rw [hplaced_ne rp cp hne2, h]
            · right
              rw [chargeAt_eq] at h ⊢
              simp only [] at h ⊢
              rw [hplaced_ne rp cp hne2]
              exact h
    | none =>
      have hplaced_eq : placeCell g r c p = setCell g r c (some ⟨p, 1⟩) := by
        unfold placeCell; rw [hg]
      have hpc : getCell (placeCell g r c p) r c = some ⟨p, 1⟩ := by
        rw [hplaced_eq]; exact getCell_setCell_self g _ hW hr hc
      have hplaced_ne : ∀ rp cp, (r ≠ rp ∨ c ≠ cp) →
          getCell (placeCell g r c p) rp cp = getCell g rp cp := by
        intro rp cp hne
        rw [hplaced_eq]; exact getCell_setCell_ne g _ hne
      have henq : enqueueExplosion p (placeCell g r c p) [] r c =
          (placeCell g r c p, []) := by
        unfold enqueueExplosion
        rw [hpc]
        dsimp only
        rw [if_neg (by omega)]
      rw [henq]
      constructor
      · intro hINV rp hrp cp hcp
        rcases eq_or_ne (r, c) (rp, cp) with heq | hne
        · have h1 : r = rp := congrArg Prod.fst heq
          have h2 : c = cp := congrArg Prod.snd heq
          subst h1; subst h2
          rw [chargeAt_eq]
          simp only []
          rw [hpc]
          simp only [chargeOf]
          omega
        · have hne2 : r ≠ rp ∨ c ≠ cp := by
            by_contra hcon
            push_neg at hcon
            exact hne (by rw [hcon.1, hcon.2])
          rw [chargeAt_eq]
          simp only []
          rw [hplaced_ne rp cp hne2]
          have hI := hINV rp hrp cp hcp
          rw [chargeAt_eq] at hI
          exact hI
      · intro hPOS rp hrp cp hcp
        rcases eq_or_ne (r, c) (rp, cp) with heq | hne
        · have h1 : r = rp := congrArg Prod.fst heq
          have h2 : c = cp := congrArg Prod.snd heq
          subst h1; subst h2
          right
          rw [chargeAt_eq]
          simp only []
          rw [hpc]
          simp [chargeOf]
        · have hne2 : r ≠ rp ∨ c ≠ cp := by
            by_contra hcon
            push_neg at hcon
            exact hne (by rw [hcon.1, hcon.2])
          rcases hPOS rp hrp cp hcp with h | h
          · left
            rw [hplaced_ne rp cp hne2, h]
          · right
            rw [chargeAt_eq] at h ⊢
            simp only [] at h ⊢
            rw [hplaced_ne rp cp hne2]
            exact h
  · have hplaced : placeCell g r c p = g := placeCell_oob g p hW hb
    have henq : enqueueExplosion p (placeCell g r c p) [] r c = (g, []) := by
      unfold enqueueExplosion
      rw [hplaced, getCell_oob hW hb]
    rw [henq]
    exact ⟨id, id⟩

theorem seeded_owns (g : Grid) (r c p : Nat) (hW : WF g) (hr : r < ROWS) (hc : c < COLS)
    (hcellp : ∀ cell, getCell g r c = some cell → cell.player = p) :
    ((enqueueExplosion p (placeCell g r c p) [] r c).2 = []) →
      ownsCell (enqueueExplosion p (placeCell g r c p) [] r c).1 p := by
  cases hg : getCell g r c with
  | some cell =>
    have hplaced_eq : placeCell g r c p =
        setCell g r c (some ⟨cell.player, cell.count + 1⟩) := by
      unfold placeCell; rw [hg]
    have hpc : getCell (placeCell g r c p) r c = some ⟨cell.player, cell.count + 1⟩ := by
      rw [hplaced_eq]; exact getCell_setCell_self g _ hW hr hc
    have henq : enqueueExplosion p (placeCell g r c p) [] r c =
        if getCriticalMass r c ≤ cell.count + 1 then
          (setCell (placeCell g r c p) r c none, [] ++ transfersFrom r c p)
        else (placeCell g r c p, []) := by
      unfold enqueueExplosion
      rw [hpc]
    by_cases hcrit : getCriticalMass r c ≤ cell.count + 1
    · rw [henq, if_pos hcrit]
      intro hq
      exfalso
      simp only [List.nil_append] at hq
      exact transfersFrom_ne_nil p hr hc hq
    · rw [henq, if_neg hcrit]
      intro _
      exact ⟨r, c, ⟨cell.player, cell.count + 1⟩, hpc, hcellp cell hg⟩
  | none =>
    have hplaced_eq : placeCell g r c p = setCell g r c (some ⟨p, 1⟩) := by
      unfold placeCell; rw [hg]
    have hpc : getCell (placeCell g r c p) r c = some ⟨p, 1⟩ := by
      rw [hplaced_eq]; exact getCell_setCell_self g _ hW hr hc
    have hcm := criticalMass_ge_two r hr c hc
    have henq : enqueueExplosion p (placeCell g r c p) [] r c =
        (placeCell g r c p, []) := by
      unfold enqueueExplosion
      rw [hpc]
      dsimp only
      rw [if_neg (by omega)]
    rw [henq]
    intro _
    exact ⟨r, c, ⟨p, 1⟩, hpc, rfl⟩

theorem handleClick_grid_invariants (fuel : Nat) (s : GameState) (r c : Nat)
    (sp : GameState) (hWg : WF s.grid) (hINVg : INVgrid s.grid) (hPOSg : POSgrid s.grid)
    (hmv : handleClick fuel s r c = .moved sp) :
    WF sp.grid ∧ INVgrid sp.grid ∧ POSgrid sp.grid := by
  obtain ⟨finalGrid, ws, hproc, hgrid, _⟩ := handleClick_moved_spec _ _ _ _ _ hmv
  have hWplaced := WF_placeCell s.grid r c s.currentPlayer hWg
  obtain ⟨hWgf, hINVf, hPOSf, _⟩ :=
    WF_processExplosions fuel _ finalGrid r c _ ws hWplaced hproc
  obtain ⟨hseedINV, hseedPOS⟩ := seeded_INV_POS s.grid r c s.currentPlayer hWg
  rw [hgrid]
  exact ⟨hWgf, hINVf (hseedINV hINVg), hPOSf (hseedPOS hPOSg)⟩

theorem reachable_invariants : ∀ s, Reachable s →
    WF s.grid ∧ INVgrid s.grid ∧ POSgrid s.grid := by
  intro s h
  induction h with
  | init => exact ⟨by decide, by decide, by decide⟩
  | step fuel r c hre hmv ih =>
    obtain ⟨hWg, hINVg, hPOSg⟩ := ih
    exact handleClick_grid_invariants _ _ _ _ _ hWg hINVg hPOSg hmv

theorem mem_ownersList_of_owns {g : Grid} {pl : Nat} (h : ownsCell g pl) :
    pl ∈ ownersList g := by
  obtain ⟨r, c, cell, hget, hp⟩ := h
  have hrg : r < g.length := by
    by_contra hge
    have hnone : g[r]? = none := List.getElem?_eq_none (by omega)
    unfold getCell at hget
    rw [List.getD_eq_getElem?_getD g r [], hnone] at hget
    simp at hget
  have hrow : g.getD r [] = g[r] := List.getD_eq_getElem g [] hrg
  have hcg : c < g[r].length := by
    by_contra hge
    have hnone : (g[r])[c]? = none := List.getElem?_eq_none (by omega)
    unfold getCell at hget
    rw [hrow, List.getD_eq_getElem?_getD (g[r]) c none, hnone] at hget
    exact Option.noConfusion hget
  have hcell_mem : some cell ∈ g[r] := by
    unfold getCell at hget
    rw [hrow, List.getD_eq_getElem _ _ hcg] at hget
    rw [← hget]
    exact List.getElem_mem hcg
  unfold ownersList
  rw [List.mem_dedup, List.mem_flatten]
  refine ⟨g[r].filterMap (fun oc => oc.map Cell.player), ?_, ?_⟩
  · rw [List.mem_map]
    exact ⟨g[r], List.getElem_mem hrg, rfl⟩
  · rw [List.mem_filterMap]
    exact ⟨some cell, hcell_mem, by simp [hp]⟩

theorem ownersList_eq_single {g : Grid} {pl : Nat}
    (hlen : (ownersList g).length = 1) (hmem : pl ∈ ownersList g) :
    ownersList g = [pl] := by
  obtain ⟨a, ha⟩ := List.length_eq_one.mp hlen
  rw [ha] at hmem ⊢
  rw [List.mem_singleton] at hmem
  rw [hmem]

/-- C3: after a completed move the game is over exactly when every
player has moved at least once and exactly one distinct owner remains
on the settled board; a game over declares the mover (who then still
owns a cell, hence is the single remaining owner) the winner and keeps
the turn, otherwise the turn advances modulo the player count; in
particular after player 0's very first move (nobody had moved before)
the game is never over. -/
theorem win_check_after_move :
    ∀ (fuel : Nat) (s : GameState) (r c : Nat) (sp : GameState),
    WF s.grid → r < ROWS → c < COLS →
    handleClick fuel s r c = .moved sp →
    (sp.gameOver = true ↔
      ((s.hasPlayed.set s.currentPlayer true).all id = true ∧
        (ownersList sp.grid).length = 1)) ∧
    (sp.gameOver = true →
      ownersList sp.grid = [s.currentPlayer] ∧ sp.currentPlayer = s.currentPlayer) ∧
    (sp.gameOver = false → sp.currentPlayer = (s.currentPlayer + 1) % players.length) ∧
    (s.hasPlayed = [false, false] → sp.gameOver = false) := by
  intro fuel s r c sp hW hr hc hmv
  obtain ⟨finalGrid, ws, hproc, hgrid, hhp, hprc, hgo, hgo1, hgo0, hnot, hnpr, hcellp⟩ :=
    handleClick_moved_spec fuel s r c sp hmv
  have hWplaced := WF_placeCell s.grid r c s.currentPlayer hW
  have hpres := WF_processExplosions fuel _ finalGrid r c s.currentPlayer ws hWplaced hproc
  have howns : ownsCell finalGrid s.currentPlayer :=
    hpres.2.2.2 (seeded_owns s.grid r c s.currentPlayer hW hr hc hcellp)
  have hmemown : s.currentPlayer ∈ ownersList finalGrid := mem_ownersList_of_owns howns
  have hiff : sp.gameOver = true ↔
      ((s.hasPlayed.set s.currentPlayer true).all id = true ∧
        (ownersList sp.grid).length = 1) := by
    rw [hgo, hgrid]
    constructor
    · intro hand
      rw [Bool.and_eq_true] at hand
      refine ⟨hand.1, ?_⟩
      have hcw := hand.2
      unfold checkWin at hcw
      rw [Bool.and_eq_true] at hcw
      exact eq_of_beq hcw.1
    · rintro ⟨hall, hlen⟩
      rw [Bool.and_eq_true]
      refine ⟨hall, ?_⟩
      unfold checkWin
      rw [Bool.and_eq_true]
      constructor
      · rw [hlen]
        rfl
      · exact List.elem_eq_true_of_mem hmemown
  refine ⟨hiff, ?_, hgo0, ?_⟩
  · intro hover
    refine ⟨?_, hgo1 hover⟩
    have hlen := (hiff.mp hover).2
    rw [hgrid] at hlen ⊢
    exact ownersList_eq_single hlen hmemown
  · intro hff
    cases hspover : sp.gameOver with
    | false => rfl
    | true =>
      exfalso
      have hall := (hiff.mp hspover).1
      rw [hff] at hall
      have hfalse : (([false, false] : List Bool).set s.currentPlayer true).all id = false := by
        rcases s.currentPlayer with _ | _ | k
        · rfl
        · rfl
        · rw [List.set_eq_of_length_le (by simp)]
          rfl
      rw [hfalse] at hall
      exact Bool.noConfusion hall

/-- C3 witness: player 0's opening move at (0,0) from the initial
state: the game is not over and the turn passes to player 1. -/
theorem win_check_after_move_witness :
    (stOpen.gameOver = true ↔
      ((initialState.hasPlayed.set initialState.currentPlayer true).all id = true ∧
        (ownersList stOpen.grid).length = 1)) ∧
    (stOpen.gameOver = true →
      ownersList stOpen.grid = [initialState.currentPlayer] ∧
        stOpen.currentPlayer = initialState.currentPlayer) ∧
    (stOpen.gameOver = false →
      stOpen.currentPlayer = (initialState.currentPlayer + 1) % players.length) ∧
    (initialState.hasPlayed = [false, false] → stOpen.gameOver = false) :=
  win_check_after_move 1 initialState 0 0 stOpen (by decide) (by decide) (by decide)
    (by decide)

/-- C7: in every reachable game state the stored charge of every
non-empty cell is at least 1, and both the application of a wave and
the completed detection pass that follows preserve this positivity —
an exploding cell is stored as empty, never with charge 0. -/
theorem positive_charge_invariant :
    (∀ s, Reachable s → POSgrid s.grid) ∧
    (∀ (p : Nat) (W : List Transfer) (g g2 : Grid) (q2 : List Transfer),
      WF g → POSgrid g → waveStep p W g = .ok (g2, q2) →
      POSgrid (applyWave p g W) ∧ POSgrid g2) := by
  constructor
  · intro s h
    exact (reachable_invariants s h).2.2
  · intro p W g g2 q2 hW hPOS hok
    exact ⟨POS_applyWave p W g hW hPOS, POS_waveStep p W g g2 q2 hW hPOS hok⟩

/-- C7 witness: positivity at the initial state. -/
theorem positive_charge_invariant_witness : POSgrid initialState.grid :=
  positive_charge_invariant.1 initialState Reachable.init

/-- C2 witness: the corner-cascade wave conserves charge. -/
theorem wave_charge_conservation_witness :
    totalCharge (applyWave 0 initialGrid cornerWave) =
      totalCharge cornerSettled + List.length ([] : List Transfer) :=
  (wave_charge_conservation.1 0 cornerWave initialGrid cornerSettled []
    (by decide) (by decide) (by decide)).1

/-- C4: a click is silently rejected exactly when resolution is in
progress, the game is already over, or the clicked cell is owned by a
player other than the current one; every rejected click returns the
whole game state unchanged. -/
theorem move_rejection_iff :
    ∀ (fuel : Nat) (s : GameState) (r c : Nat), r < ROWS → c < COLS →
    ((isRejected (handleClick fuel s r c) = true) ↔
      (s.processing || s.gameOver || ownedByOther s r c) = true) ∧
    (isRejected (handleClick fuel s r c) = true →
      handleClick fuel s r c = .rejected s) := by
  intro fuel s r c _ _
  unfold handleClick
  by_cases hguard : (s.processing || s.gameOver) = true
  · rw [if_pos hguard]
    refine ⟨?_, fun _ => rfl⟩
    simp only [isRejected]
    constructor
    · intro _
      rcases Bool.or_eq_true_iff.mp hguard with h | h
      · rw [h]; rfl
      · rw [h]
        simp
    · intro _
      trivial
  · rw [if_neg hguard]
    have hp : s.processing = false := by
      cases hpp : s.processing
      · rfl
      · rw [hpp] at hguard; simp at hguard
    have hg : s.gameOver = false := by
      cases hgg : s.gameOver
      · rfl
      · rw [hgg] at hguard; simp at hguard
    cases hcell : getCell s.grid r c with
    | some cell =>
      dsimp only
      by_cases hok : (cell.player == s.currentPlayer) = true
      · rw [if_pos hok]
        have hob : ownedByOther s r c = false := by
          unfold ownedByOther
          rw [hcell]
          dsimp only
          rw [hok]
          rfl
        have hnr : isRejected
            (match processExplosions fuel (placeCell s.grid r c s.currentPlayer) r c
                s.currentPlayer with
              | StepResult.ok finalGrid _ =>
                if ((s.hasPlayed.set s.currentPlayer true).all id &&
                    checkWin finalGrid s.currentPlayer) = true then
                  ClickResult.moved { s with
                    grid := finalGrid
                    hasPlayed := s.hasPlayed.set s.currentPlayer true
                    gameOver := true }
                else
                  ClickResult.moved { s with
                    grid := finalGrid
                    hasPlayed := s.hasPlayed.set s.currentPlayer true
                    currentPlayer := (s.currentPlayer + 1) % players.length }
              | StepResult.crash x y => ClickResult.crash x y
              | StepResult.fuelOut => ClickResult.fuelOut) = false := by
          cases hproc : processExplosions fuel (placeCell s.grid r c s.currentPlayer) r c
              s.currentPlayer with
          | ok finalGrid ws =>
            dsimp only
            by_cases hw : ((s.hasPlayed.set s.currentPlayer true).all id &&
                checkWin finalGrid s.currentPlayer) = true
            · rw [if_pos hw]; rfl
            · rw [if_neg hw]; rfl
          | crash x y => rfl
          | fuelOut => rfl
        rw [hnr, hp, hg, hob]
        refine ⟨by simp, ?_⟩
        intro hcon
        exact Bool.noConfusion hcon
      · rw [if_neg hok]
        have hob : ownedByOther s r c = true := by
          unfold ownedByOther
          rw [hcell]
          dsimp only
          cases hb : (cell.player == s.currentPlayer) with
          | false => rfl
          | true => exact absurd hb hok
        refine ⟨?_, fun _ => rfl⟩
        simp only [isRejected]
        rw [hp, hg, hob]
        simp
    | none =>
      dsimp only
      rw [if_pos rfl]
      have hob : ownedByOther s r c = false := by
        unfold ownedByOther
        rw [hcell]
      have hnr : isRejected
          (match processExplosions fuel (placeCell s.grid r c s.currentPlayer) r c
              s.currentPlayer with
            | StepResult.ok finalGrid _ =>
              if ((s.hasPlayed.set s.currentPlayer true).all id &&
                  checkWin finalGrid s.currentPlayer) = true then
                ClickResult.moved { s with
                  grid := finalGrid
                  hasPlayed := s.hasPlayed.set s.currentPlayer true
                  gameOver := true }
              else
                ClickResult.moved { s with
                  grid := finalGrid
                  hasPlayed := s.hasPlayed.set s.currentPlayer true
                  currentPlayer := (s.currentPlayer + 1) % players.length }
            | StepResult.crash x y => ClickResult.crash x y
            | StepResult.fuelOut => ClickResult.fuelOut) = false := by
        cases hproc : processExplosions fuel (placeCell s.grid r c s.currentPlayer) r c
            s.currentPlayer with
        | ok finalGrid ws =>
          dsimp only
          by_cases hw : ((s.hasPlayed.set s.currentPlayer true).all id &&
              checkWin finalGrid s.currentPlayer) = true
          · rw [if_pos hw]; rfl
          · rw [if_neg hw]; rfl
        | crash x y => rfl
        | fuelOut => rfl
      rw [hnr, hp, hg, hob]
      refine ⟨by simp, ?_⟩
      intro hcon
      exact Bool.noConfusion hcon

/-- C4 witness: after the game is over every click is rejected and the
state is returned unchanged. -/
theorem move_rejection_iff_witness :
    ((isRejected (handleClick 1 stateOverC4 0 0) = true) ↔
      (stateOverC4.processing || stateOverC4.gameOver ||
        ownedByOther stateOverC4 0 0) = true) ∧
    (isRejected (handleClick 1 stateOverC4 0 0) = true →
      handleClick 1 stateOverC4 0 0 = .rejected stateOverC4) :=
  move_rejection_iff 1 stateOverC4 0 0 (by decide) (by decide)

theorem stepAnim_proj (now : Nat → Nat) (p : Nat) :
    ∀ (fuel tick : Nat) (q : List Transfer) (g : Grid),
    (stepThroughQueueAnim now p tick fuel q g).1 = stepThroughQueue p fuel q g := by
  intro fuel
  induction fuel with
  | zero =>
    intro tick q g
    cases q with
    | nil => rfl
    | cons t ts => rfl
  | succ n ih =>
    intro tick q g
    cases q with
    | nil => rfl
    | cons t ts =>
      simp only [stepThroughQueueAnim, stepThroughQueue]
      cases hws : waveStep p (t :: ts) g with
      | error e => rfl
      | ok pair =>
        obtain ⟨g2, q2⟩ := pair
        dsimp only
        rw [← ih (tick + 1) q2 g2]

/-- C9: cascade resolution is deterministic — the wall-clock samples
that feed the animation keys never influence the game-logic output:
from the same board, queue and player, any two clock functions yield
the identical wave sequence and settled board, both equal to the
clock-free engine. -/
theorem cascade_resolution_deterministic :
    ∀ (now1 now2 : Nat → Nat) (tick1 tick2 p fuel : Nat) (q : List Transfer)
      (g : Grid) (r c : Nat),
    (stepThroughQueueAnim now1 p tick1 fuel q g).1 =
      (stepThroughQueueAnim now2 p tick2 fuel q g).1 ∧
    (stepThroughQueueAnim now1 p tick1 fuel q g).1 = stepThroughQueue p fuel q g ∧
    (processExplosionsAnim now1 fuel g r c p).1 = processExplosions fuel g r c p ∧
    (processExplosionsAnim now1 fuel g r c p).1 =
      (processExplosionsAnim now2 fuel g r c p).1 := by
  intro now1 now2 tick1 tick2 p fuel q g r c
  refine ⟨?_, stepAnim_proj now1 p fuel tick1 q g, ?_, ?_⟩
  · rw [stepAnim_proj, stepAnim_proj]
  · unfold processExplosionsAnim processExplosions
    exact stepAnim_proj now1 p fuel 0 _ _
  · unfold processExplosionsAnim
    rw [stepAnim_proj, stepAnim_proj]
